import Mathlib

/-!
# Slot 10x10: payout evaluation engine

A shallow embedding of `src/slot_10x10.cpp` (run detector `Game::initialRun`,
payout rule `payForRun`, orchestrator `Game::evaluate`, session loop `Game::menu`)
together with the properties of the evaluation engine and of the session.

Conventions of the embedding.

* `char` is `Char`; the "no anchor" value `char target = 0` is the character with code 0.
* `int` and `long long` are `Int` (no wrap-around is modelled: the run length is at most
  the line length and the amounts stay far below `2^63` for the bet levels of the game).
* `double` is modelled by the rational value it denotes. Every operation that produces a
  `double` (a decimal literal, the conversion of an `int` or `long long` operand, a product)
  rounds its exact result to the nearest binary64 value, ties to even (`roundDouble`). The
  exponent range is not bounded: no value of this program comes near overflow or the
  subnormal range. In `bet * m` the `long long` operand `bet` is first converted to `double`.
* `llround` rounds to the nearest integer, halfway cases away from zero.
* What the program takes from outside (the numbers read from `cin`, the indices drawn by
  the random engine) is an explicit input of the step function of the menu loop; output to
  `cout` is not modelled.
-/

namespace Slot

/-! ## binary64 arithmetic -/

/-- A `double`, given by the rational number it denotes. -/
abbrev Double := ℚ

/-- Round a rational to the nearest integer, ties to the even integer. -/
def roundHalfEven (q : ℚ) : ℤ :=
  let f := ⌊q⌋
  let r := q - f
  if r < 1 / 2 then f
  else if 1 / 2 < r then f + 1
  else if f % 2 = 0 then f else f + 1

/-- Nearest binary64 value of a rational: 53 significant bits, ties to even. -/
def roundDouble (x : ℚ) : Double :=
  if x = 0 then 0
  else
    let ulp := (2 : ℚ) ^ (Int.log 2 |x| - 52)
    (roundHalfEven (x / ulp) : ℚ) * ulp

/-- A decimal literal of type `double`. -/
def lit (q : ℚ) : Double := roundDouble q

/-- Conversion of an `int` or `long long` to `double`. -/
def ofInt (n : Int) : Double := roundDouble n

/-- Product of two `double`s. -/
def dmul (a b : Double) : Double := roundDouble (a * b)

/-- The C library `llround`: nearest integer, halfway cases away from zero. -/
def llround (x : Double) : Int :=
  if 0 ≤ x then ⌊x + 1 / 2⌋ else -⌊-x + 1 / 2⌋

/-! ## GameConfig -/

/-- `GameConfig::ROWS`. -/
abbrev ROWS : Nat := 10

/-- `GameConfig::COLS`. -/
abbrev COLS : Nat := 10

/-- `GameConfig::symbols`. -/
def symbols : List Char := ['A', 'B', 'C', 'D', 'E', 'F', 'G', 'H', 'W', 'S']

/-- The entries of `GameConfig::basePay`. -/
def basePayTable : List (Char × Double) :=
  [('A', lit (5 / 10)), ('B', lit (8 / 10)), ('C', lit 1), ('D', lit (13 / 10)),
   ('E', lit (17 / 10)), ('F', lit (25 / 10)), ('G', lit 4), ('H', lit 6)]

/-- Lookup `cfg.basePay.find(sym)`: `none` stands for `cfg.basePay.end()`. -/
def basePay (sym : Char) : Option Double := basePayTable.lookup sym

/-- `GameConfig::scatterStep`. -/
def scatterStep : Double := lit (8 / 10)

/-- `GameConfig::betLevels`. -/
def betLevels : List Int := [1000, 2000, 4000, 10000, 20000, 50000, 100000, 200000, 500000]

/-- `GameConfig::startBalance`. -/
def startBalance : Int := 1000000

/-! ## Game -/

/-- The grid: `ROWS` rows of `COLS` cells. -/
abbrev Grid := Fin ROWS → Fin COLS → Char

/-- The fields of `struct Game` (the random engine apart). -/
structure Game where
  grid : Grid
  balance : Int
  betIndex : Int
  useColor : Bool
  showWins : Bool
  autoSpin : Bool

/-- The value `0` of `char target = 0`: no anchor fixed. -/
def noTarget : Char := Char.ofNat 0

/-- The `for (char ch : line)` loop of `initialRun`, from the state `(target, len)`;
a `break` returns the state reached. -/
def initialRunLoop : List Char → Char → Int → Char × Int
  | [], target, len => (target, len)
  | ch :: rest, target, len =>
    if ch = 'S' then (target, len)
    else if ch = 'W' then initialRunLoop rest target (len + 1)
    else if target = noTarget then initialRunLoop rest ch (len + 1)
    else if ch = target then initialRunLoop rest target (len + 1)
    else (target, len)

/-- `Game::initialRun`: returns `(runLen, symbolUsed)`. -/
def initialRun (line : List Char) : Int × Char :=
  let st := initialRunLoop line noTarget 0
  if 0 < st.2 ∧ st.1 = noTarget then (st.2, 'H') else (st.2, st.1)

/-- The lambda `payForRun` of `Game::evaluate`. -/
def payForRun (sym : Char) (run : Int) : Double :=
  if run < 3 then 0
  else
    match basePay sym with
    | none => 0
    | some base => dmul base (ofInt (run - 2))

/-- The line `grid[r][0..COLS-1]`, read left to right. -/
def rowLine (grid : Grid) (r : Fin ROWS) : List Char :=
  (List.finRange COLS).map fun c => grid r c

/-- The line `grid[0..ROWS-1][c]`, read top to bottom. -/
def colLine (grid : Grid) (c : Fin COLS) : List Char :=
  (List.finRange ROWS).map fun r => grid r c

/-- The text pushed for a winning row:
`"Row " + to_string(r) + ": " + string(1, sym) + " x" + to_string(len) + " => +" + to_string(win)`. -/
def rowNote (r : Nat) (sym : Char) (len win : Int) : String :=
  "Row " ++ toString r ++ ": " ++ String.singleton sym ++ " x" ++ toString len
    ++ " => +" ++ toString win

/-- The text pushed for a winning column:
`"Col " + to_string(c) + ": " + string(1, sym) + " x" + to_string(len) + " => +" + to_string(win)`. -/
def colNote (c : Nat) (sym : Char) (len win : Int) : String :=
  "Col " ++ toString c ++ ": " ++ String.singleton sym ++ " x" ++ toString len
    ++ " => +" ++ toString win

/-- The text pushed for a scatter win:
`"Scatter S x" + to_string(scat) + " => +" + to_string(win)`. -/
def scatterNote (scat win : Int) : String :=
  "Scatter S x" ++ toString scat ++ " => +" ++ toString win

/-- Body of the row loop of `evaluate`, on the state `(total, winNotes)`. -/
def rowStep (g : Game) (bet : Int) (st : Int × List String) (r : Fin ROWS) :
    Int × List String :=
  let run := initialRun (rowLine g.grid r)
  let m := payForRun run.2 run.1
  if 0 < m then
    let win := llround (dmul (ofInt bet) m)
    (st.1 + win,
      if g.showWins then
        st.2 ++ [rowNote r.val run.2 run.1 win]
      else st.2)
  else st

/-- Body of the column loop of `evaluate`, on the state `(total, winNotes)`. -/
def colStep (g : Game) (bet : Int) (st : Int × List String) (c : Fin COLS) :
    Int × List String :=
  let run := initialRun (colLine g.grid c)
  let m := payForRun run.2 run.1
  if 0 < m then
    let win := llround (dmul (ofInt bet) m)
    (st.1 + win,
      if g.showWins then
        st.2 ++ [colNote c.val run.2 run.1 win]
      else st.2)
  else st

/-- The scatter count of `evaluate`: the nested loops incrementing `scat`. -/
def countScatter (grid : Grid) : Int :=
  (List.finRange ROWS).foldl
    (fun scat r => (List.finRange COLS).foldl
      (fun scat c => if grid r c = 'S' then scat + 1 else scat) scat) 0

/-- The scatter block of `evaluate`, on the state `(total, winNotes)`. -/
def scatterStage (g : Game) (bet : Int) (st : Int × List String) : Int × List String :=
  let scat := countScatter g.grid
  if 5 ≤ scat then
    let mult := dmul scatterStep (ofInt (scat - 4))
    let win := llround (dmul (ofInt bet) mult)
    (st.1 + win,
      if g.showWins then
        st.2 ++ [scatterNote scat win]
      else st.2)
  else st

/-- `Game::evaluate`: returns `total` and the final contents of `winNotes`. It reads the
fields `grid` and `showWins` and writes no field of the state, so no state is returned. -/
def evaluate (g : Game) (bet : Int) (winNotes : List String) : Int × List String :=
  let st0 : Int × List String := (0, winNotes)
  let st1 := (List.finRange ROWS).foldl (rowStep g bet) st0
  let st2 := (List.finRange COLS).foldl (colStep g bet) st1
  scatterStage g bet st2

/-! ## The menu loop -/

/-- `Game::randomSymbol`: the symbol `cfg.symbols[idx]` at the index returned by
`rng.pick(cfg.weights)`, a position of the ten-entry weight table; the index drawn is an
input of the model. -/
def randomSymbol (idx : Fin 10) : Char := symbols.get (idx.cast (by decide))

/-- `Game::spin`: every cell of the grid receives a freshly drawn symbol. -/
def spin (g : Game) (picks : Fin ROWS → Fin COLS → Fin 10) : Game :=
  { g with grid := fun r c => randomSymbol (picks r c) }

/-- The bet `cfg.betLevels[betIndex]`. Outside the index range the C++ access is
undefined; the model returns 0 there. -/
def currentBet (g : Game) : Int :=
  if 0 ≤ g.betIndex then betLevels.getD g.betIndex.toNat 0 else 0

/-- What one iteration of the loop of `menu` takes from outside: the result of
`cin >> choice` (`none` when the read fails, as at end of input), the result of
`cin >> idx` at the change-bet prompt, and the indices drawn by `spin`. A field that the
iteration does not reach is ignored. -/
structure Input where
  choice : Option Int
  idx : Option Int
  picks : Fin ROWS → Fin COLS → Fin 10

/-- One iteration of the `while (true)` loop of `Game::menu`; `none` when `menu` returns.
Output to `cout` and the pacing delay are not modelled. -/
def menuStep (g : Game) (inp : Input) : Option Game :=
  match (if g.autoSpin then some 1 else inp.choice) with
  | none => none
  | some choice =>
    if choice = 0 then none
    else if choice = 1 then
      let bet := currentBet g
      if g.balance < bet then some { g with autoSpin := false }
      else
        let g1 := spin { g with balance := g.balance - bet } inp.picks
        let win := (evaluate g1 bet []).1
        let g2 := { g1 with balance := g1.balance + win }
        if g2.autoSpin = true ∧ g2.balance < bet then some { g2 with autoSpin := false }
        else some g2
    else if choice = 2 then
      match inp.idx with
      | some idx =>
        if 0 ≤ idx ∧ idx < (betLevels.length : Int) then some { g with betIndex := idx }
        else some g
      | none => some g
    else if choice = 3 then some { g with useColor := !g.useColor }
    else if choice = 4 then some { g with showWins := !g.showWins }
    else if choice = 5 then some g
    else if choice = 6 then some { g with autoSpin := !g.autoSpin }
    else if choice = 7 then some { g with balance := g.balance + 100000 }
    else some g

/-- `Game::menu` on a finite sequence of inputs: the state when `menu` returns, or when
the inputs are used up. Every state reached during a run is the result on a prefix. -/
def menu : Game → List Input → Game
  | g, [] => g
  | g, inp :: rest =>
    match menuStep g inp with
    | none => g
    | some g1 => menu g1 rest

/-! ## Derived notions used to state the properties -/

/-- The standard symbols: the alphabet without the wild `'W'` and the scatter `'S'`. -/
def standardSymbols : List Char :=
  symbols.filter fun ch => ch ≠ 'W' ∧ ch ≠ 'S'

/-- Length of the longest prefix of `line` whose symbols are all `Y` or `'W'`. -/
def prefixLen (Y : Char) (line : List Char) : Int :=
  ((line.takeWhile fun ch => decide (ch = Y) || decide (ch = 'W')).length : Int)

/-- The line payout for anchor `sym` and run length `run` at a bet: what the body shared
by the row loop and the column loop of `evaluate` adds to `total`. -/
def linePayout (bet : Int) (sym : Char) (run : Int) : Int :=
  let m := payForRun sym run
  if 0 < m then llround (dmul (ofInt bet) m) else 0

/-- The line payout of a line: the payout rule applied to `initialRun` of the line. -/
def lineWin (bet : Int) (line : List Char) : Int :=
  linePayout bet (initialRun line).2 (initialRun line).1

/-- The number of cells of the whole grid that hold the scatter `'S'`. -/
def scatterCells (grid : Grid) : Nat :=
  (Finset.univ.filter fun p : Fin ROWS × Fin COLS => grid p.1 p.2 = 'S').card

/-- The scatter payout at a bet for a scatter count: what the scatter block of `evaluate`
adds to `total`. -/
def scatterPayout (bet : Int) (scat : Int) : Int :=
  if 5 ≤ scat then llround (dmul (ofInt bet) (dmul scatterStep (ofInt (scat - 4)))) else 0

/-- The descriptions of the lines and of the scatter that `evaluate` pays: rows with a
positive multiplier by increasing index, then such columns, then the scatter when the
count reaches 5. -/
def paidDescriptions (grid : Grid) (bet : Int) : List String :=
  (((List.finRange ROWS).filter fun r =>
      0 < payForRun (initialRun (rowLine grid r)).2 (initialRun (rowLine grid r)).1).map
    fun r => rowNote r.val (initialRun (rowLine grid r)).2 (initialRun (rowLine grid r)).1
      (lineWin bet (rowLine grid r)))
  ++ (((List.finRange COLS).filter fun c =>
      0 < payForRun (initialRun (colLine grid c)).2 (initialRun (colLine grid c)).1).map
    fun c => colNote c.val (initialRun (colLine grid c)).2 (initialRun (colLine grid c)).1
      (lineWin bet (colLine grid c)))
  ++ (if 5 ≤ countScatter grid then
      [scatterNote (countScatter grid) (scatterPayout bet (countScatter grid))] else [])

/-- The descriptions the specification asks for: one for every non-zero win and none for
anything else, winning rows by increasing index, then winning columns by increasing index,
then the scatter win if any; a line description names the line, the anchor symbol, the
run length and the amount. -/
def winDescriptions (grid : Grid) (bet : Int) : List String :=
  (((List.finRange ROWS).filter fun r => lineWin bet (rowLine grid r) ≠ 0).map
    fun r => rowNote r.val (initialRun (rowLine grid r)).2 (initialRun (rowLine grid r)).1
      (lineWin bet (rowLine grid r)))
  ++ (((List.finRange COLS).filter fun c => lineWin bet (colLine grid c) ≠ 0).map
    fun c => colNote c.val (initialRun (colLine grid c)).2 (initialRun (colLine grid c)).1
      (lineWin bet (colLine grid c)))
  ++ (if scatterPayout bet (countScatter grid) ≠ 0 then
      [scatterNote (countScatter grid) (scatterPayout bet (countScatter grid))] else [])

/-- The invariant of the session: the balance is not negative and the bet index is a valid
index into `betLevels`. -/
def Game.wellFormed (g : Game) : Prop :=
  0 ≤ g.balance ∧ 0 ≤ g.betIndex ∧ g.betIndex < (betLevels.length : Int)

/-! ## Sample states -/

/-- The state built by the constructor `Game()`. -/
def Game.init : Game :=
  { grid := fun _ _ => ' ', balance := startBalance, betIndex := 3, useColor := true,
    showWins := true, autoSpin := false }

/-- A state whose grid holds `'A'` everywhere. -/
def allA : Game := { Game.init with grid := fun _ _ => 'A' }

/-- The state `allA` with show-wins switched off. -/
def allAQuiet : Game := { allA with showWins := false }

/-- The state `allA` with other values in the fields that `evaluate` does not read. -/
def allABusy : Game :=
  { allA with balance := 0, betIndex := 5, useColor := false, autoSpin := true }

/-- A state whose grid holds exactly five scatters, all in row 0. -/
def fiveScatters : Game :=
  { Game.init with grid := fun r c => if r.val = 0 ∧ c.val < 5 then 'S' else 'A' }

/-- A state whose grid holds a scatter at the start of every row. -/
def scatterEdge : Game :=
  { Game.init with grid := fun _ c => if c.val = 0 then 'S' else 'A' }

/-- A state with balance 500 at the lowest bet level (1000), auto-spin on. -/
def shortOfFunds : Game :=
  { Game.init with balance := 500, betIndex := 0, autoSpin := true }

/-- An input asking for a spin that draws index 0 (symbol `'A'`) in every cell. -/
def spinInput : Input :=
  { choice := some 1, idx := none, picks := fun _ _ => 0 }

/-- An input choosing the change-bet command and entering the index `i`. -/
def betInput (i : Int) : Input :=
  { choice := some 2, idx := some i, picks := fun _ _ => 0 }

/-- The decimal literals of `GameConfig::basePay`, as written in the source. -/
def basePayDecimals : List (Char × ℚ) :=
  [('A', 5 / 10), ('B', 8 / 10), ('C', 1), ('D', 13 / 10),
   ('E', 17 / 10), ('F', 25 / 10), ('G', 4), ('H', 6)]

/-- The decimal literal of `GameConfig::scatterStep`, as written in the source. -/
def scatterStepDecimal : ℚ := 8 / 10

/-! ## Rounding -/

theorem roundHalfEven_cases (q : ℚ) :
    (roundHalfEven q = ⌊q⌋ ∧ q - ⌊q⌋ ≤ 1 / 2) ∨ (roundHalfEven q = ⌊q⌋ + 1 ∧ 1 / 2 ≤ q - ⌊q⌋) := by
  unfold roundHalfEven
  simp only []
  split_ifs with h1 h2 h3
  · exact Or.inl ⟨rfl, le_of_lt h1⟩
  · exact Or.inr ⟨rfl, le_of_lt h2⟩
  · exact Or.inl ⟨rfl, not_lt.1 h2⟩
  · exact Or.inr ⟨rfl, not_lt.1 h1⟩

theorem roundHalfEven_intCast (n : ℤ) : roundHalfEven (n : ℚ) = n := by
  unfold roundHalfEven
  simp

theorem roundHalfEven_mono {x y : ℚ} (h : x ≤ y) : roundHalfEven x ≤ roundHalfEven y := by
  have hf : ⌊x⌋ ≤ ⌊y⌋ := Int.floor_mono h
  rcases lt_or_eq_of_le hf with hlt | heq
  · have hx : roundHalfEven x ≤ ⌊x⌋ + 1 := by
      rcases roundHalfEven_cases x with ⟨a, _⟩ | ⟨a, _⟩ <;> omega
    have hy : ⌊y⌋ ≤ roundHalfEven y := by
      rcases roundHalfEven_cases y with ⟨a, _⟩ | ⟨a, _⟩ <;> omega
    omega
  · have hr : x - ⌊x⌋ ≤ y - ⌊y⌋ := by
      rw [heq]; linarith
    unfold roundHalfEven
    simp only []
    rw [heq] at hr ⊢
    split_ifs <;> first | omega | (exfalso; linarith)

theorem abs_roundHalfEven_sub_le (q : ℚ) : |(roundHalfEven q : ℚ) - q| ≤ 1 / 2 := by
  have h1 := Int.floor_le q
  have h2 := Int.lt_floor_add_one q
  rw [abs_le]
  rcases roundHalfEven_cases q with ⟨a, b⟩ | ⟨a, b⟩
  · rw [a]; constructor <;> linarith
  · rw [a]; push_cast; constructor <;> linarith

theorem roundHalfEven_eq_of_close (q : ℚ) (n : ℤ) (h : |q - n| < 1 / 2) :
    roundHalfEven q = n := by
  have h1 := abs_roundHalfEven_sub_le q
  have h2 : |((roundHalfEven q : ℤ) : ℚ) - (n : ℚ)| < 1 := by
    calc |((roundHalfEven q : ℤ) : ℚ) - (n : ℚ)|
        = |((roundHalfEven q : ℚ) - q) + (q - n)| := by ring_nf
      _ ≤ |(roundHalfEven q : ℚ) - q| + |q - n| := abs_add _ _
      _ < 1 := by linarith
  have h3 : |roundHalfEven q - n| < 1 := by
    have : ((|roundHalfEven q - n| : ℤ) : ℚ) < 1 := by
      rw [Int.cast_abs]; push_cast; exact h2
    exact_mod_cast this
  have := Int.abs_lt_one_iff.1 h3
  omega

theorem two_zpow_log_le (x : ℚ) (hx : x ≠ 0) : (2 : ℚ) ^ Int.log 2 |x| ≤ |x| := by
  have := Int.zpow_log_le_self (b := 2) (r := |x|) (by norm_num) (abs_pos.2 hx)
  simpa using this

theorem lt_two_zpow_log_succ (x : ℚ) : |x| < (2 : ℚ) ^ (Int.log 2 |x| + 1) := by
  have := Int.lt_zpow_succ_log_self (b := 2) (by norm_num) |x|
  simpa using this

theorem log_eq_of_binade (x : ℚ) (e : ℤ) (h1 : (2 : ℚ) ^ e ≤ |x|)
    (h2 : |x| < (2 : ℚ) ^ (e + 1)) : Int.log 2 |x| = e := by
  have hpos : (0 : ℚ) < |x| := lt_of_lt_of_le (by positivity) h1
  have a : e ≤ Int.log 2 |x| := by
    rw [← Int.zpow_le_iff_le_log (by norm_num) hpos]
    simpa using h1
  have b : Int.log 2 |x| < e + 1 := by
    rw [← Int.lt_zpow_iff_log_lt (by norm_num) hpos]
    simpa using h2
  omega

theorem roundDouble_of_ne (x : ℚ) (hx : x ≠ 0) :
    roundDouble x = (roundHalfEven (x / (2 : ℚ) ^ (Int.log 2 |x| - 52)) : ℚ)
      * (2 : ℚ) ^ (Int.log 2 |x| - 52) := by
  unfold roundDouble
  rw [if_neg hx]

theorem roundDouble_zero : roundDouble 0 = 0 := by
  simp [roundDouble]

/-- Certificate for a concrete rounding: the binade of `x` and the nearest significand. -/
theorem roundDouble_eq (x : ℚ) (e n : ℤ) (h1 : (2 : ℚ) ^ e ≤ |x|)
    (h2 : |x| < (2 : ℚ) ^ (e + 1)) (h3 : |x / (2 : ℚ) ^ (e - 52) - n| < 1 / 2) :
    roundDouble x = (n : ℚ) * (2 : ℚ) ^ (e - 52) := by
  have hpos : (0 : ℚ) < |x| := lt_of_lt_of_le (by positivity) h1
  rw [roundDouble_of_ne x (abs_pos.1 hpos), log_eq_of_binade x e h1 h2,
    roundHalfEven_eq_of_close _ n h3]

theorem roundDouble_nonneg {x : ℚ} (hx : 0 ≤ x) : 0 ≤ roundDouble x := by
  rcases eq_or_lt_of_le hx with h | h
  · rw [← h, roundDouble_zero]
  · rw [roundDouble_of_ne x (ne_of_gt h)]
    have hu : (0 : ℚ) < (2 : ℚ) ^ (Int.log 2 |x| - 52) := by positivity
    have : (0 : ℤ) ≤ roundHalfEven (x / (2 : ℚ) ^ (Int.log 2 |x| - 52)) := by
      have := roundHalfEven_mono (x := ((0 : ℤ) : ℚ)) (y := x / (2 : ℚ) ^ (Int.log 2 |x| - 52))
        (by simpa using div_nonneg hx (le_of_lt hu))
      rwa [roundHalfEven_intCast] at this
    have : (0 : ℚ) ≤ (roundHalfEven (x / (2 : ℚ) ^ (Int.log 2 |x| - 52)) : ℚ) := by
      exact_mod_cast this
    positivity

theorem roundDouble_nonpos {x : ℚ} (hx : x ≤ 0) : roundDouble x ≤ 0 := by
  rcases eq_or_lt_of_le hx with h | h
  · rw [h, roundDouble_zero]
  · rw [roundDouble_of_ne x (ne_of_lt h)]
    have hu : (0 : ℚ) < (2 : ℚ) ^ (Int.log 2 |x| - 52) := by positivity
    have : roundHalfEven (x / (2 : ℚ) ^ (Int.log 2 |x| - 52)) ≤ (0 : ℤ) := by
      have := roundHalfEven_mono (x := x / (2 : ℚ) ^ (Int.log 2 |x| - 52)) (y := ((0 : ℤ) : ℚ))
        (by simpa using div_nonpos_of_nonpos_of_nonneg hx (le_of_lt hu))
      rwa [roundHalfEven_intCast] at this
    have : (roundHalfEven (x / (2 : ℚ) ^ (Int.log 2 |x| - 52)) : ℚ) ≤ 0 := by
      exact_mod_cast this
    exact mul_nonpos_of_nonpos_of_nonneg this (le_of_lt hu)

/-- A positive value and its rounding lie in the same closed binade. -/
theorem roundDouble_binade_pos {x : ℚ} (hx : 0 < x) :
    (2 : ℚ) ^ Int.log 2 |x| ≤ roundDouble x ∧ roundDouble x ≤ (2 : ℚ) ^ (Int.log 2 |x| + 1) := by
  have hne : x ≠ 0 := ne_of_gt hx
  have hu : (0 : ℚ) < (2 : ℚ) ^ (Int.log 2 |x| - 52) := by positivity
  have hlo := two_zpow_log_le x hne
  have hhi := lt_two_zpow_log_succ x
  have hlo : (2 : ℚ) ^ Int.log 2 |x| ≤ x := le_trans hlo (le_of_eq (abs_of_pos hx))
  have hhi : x < (2 : ℚ) ^ (Int.log 2 |x| + 1) := lt_of_le_of_lt (le_abs_self x) hhi
  have h52 : (((2 ^ 52 : ℤ)) : ℚ) = (2 : ℚ) ^ (52 : ℤ) := by norm_num
  have h53 : (((2 ^ 53 : ℤ)) : ℚ) = (2 : ℚ) ^ (53 : ℤ) := by norm_num
  have e1 : (2 : ℚ) ^ Int.log 2 |x| = (2 : ℚ) ^ (52 : ℤ) * (2 : ℚ) ^ (Int.log 2 |x| - 52) := by
    rw [← zpow_add₀ (by norm_num : (2 : ℚ) ≠ 0)]; congr 1; ring
  have e2 : (2 : ℚ) ^ (Int.log 2 |x| + 1)
      = (2 : ℚ) ^ (53 : ℤ) * (2 : ℚ) ^ (Int.log 2 |x| - 52) := by
    rw [← zpow_add₀ (by norm_num : (2 : ℚ) ≠ 0)]; congr 1; ring
  have a : (((2 ^ 52 : ℤ)) : ℚ) ≤ x / (2 : ℚ) ^ (Int.log 2 |x| - 52) := by
    rw [le_div_iff₀ hu]
    rw [h52, ← e1]; exact hlo
  have b : x / (2 : ℚ) ^ (Int.log 2 |x| - 52) ≤ (((2 ^ 53 : ℤ)) : ℚ) := by
    rw [div_le_iff₀ hu]
    rw [h53, ← e2]; exact le_of_lt hhi
  have a' := roundHalfEven_mono a
  have b' := roundHalfEven_mono b
  rw [roundHalfEven_intCast] at a' b'
  have a'' : (2 : ℚ) ^ (52 : ℤ) ≤ (roundHalfEven (x / (2 : ℚ) ^ (Int.log 2 |x| - 52)) : ℚ) := by
    have : (((2 ^ 52 : ℤ)) : ℚ) ≤ (roundHalfEven (x / (2 : ℚ) ^ (Int.log 2 |x| - 52)) : ℚ) := by
      exact_mod_cast a'
    rwa [h52] at this
  have b'' : (roundHalfEven (x / (2 : ℚ) ^ (Int.log 2 |x| - 52)) : ℚ) ≤ (2 : ℚ) ^ (53 : ℤ) := by
    have : (roundHalfEven (x / (2 : ℚ) ^ (Int.log 2 |x| - 52)) : ℚ) ≤ (((2 ^ 53 : ℤ)) : ℚ) := by
      exact_mod_cast b'
    rwa [h53] at this
  rw [roundDouble_of_ne x hne, e1, e2]
  exact ⟨mul_le_mul_of_nonneg_right a'' (le_of_lt hu), mul_le_mul_of_nonneg_right b'' (le_of_lt hu)⟩

theorem roundHalfEven_neg (q : ℚ) : roundHalfEven (-q) = -roundHalfEven q := by
  have h1 := Int.floor_le q
  have h2 := Int.lt_floor_add_one q
  by_cases hq : q = ⌊q⌋
  · have : -q = ((-⌊q⌋ : ℤ) : ℚ) := by push_cast; linarith
    rw [this, roundHalfEven_intCast]
    conv_rhs => rw [hq, roundHalfEven_intCast]
  · have hlt : (⌊q⌋ : ℚ) < q := lt_of_le_of_ne h1 (Ne.symm hq)
    have hf : ⌊-q⌋ = -⌊q⌋ - 1 := by
      rw [Int.floor_eq_iff]
      push_cast
      constructor <;> linarith
    unfold roundHalfEven
    simp only []
    rw [hf]
    push_cast
    split_ifs <;> first | omega | (exfalso; linarith)

theorem roundDouble_neg (x : ℚ) : roundDouble (-x) = -roundDouble x := by
  by_cases hx : x = 0
  · simp [hx, roundDouble_zero]
  · rw [roundDouble_of_ne x hx, roundDouble_of_ne (-x) (neg_ne_zero.2 hx), abs_neg, neg_div,
      roundHalfEven_neg]
    push_cast
    ring

theorem roundDouble_mono_pos {x y : ℚ} (hx : 0 < x) (h : x ≤ y) :
    roundDouble x ≤ roundDouble y := by
  have hy : 0 < y := lt_of_lt_of_le hx h
  have hlog : Int.log 2 |x| ≤ Int.log 2 |y| :=
    Int.log_mono_right (abs_pos.2 (ne_of_gt hx)) (by rwa [abs_of_pos hx, abs_of_pos hy])
  rcases eq_or_lt_of_le hlog with heq | hlt
  · rw [roundDouble_of_ne x (ne_of_gt hx), roundDouble_of_ne y (ne_of_gt hy), heq]
    have hu : (0 : ℚ) < (2 : ℚ) ^ (Int.log 2 |y| - 52) := by positivity
    have := roundHalfEven_mono (div_le_div_of_nonneg_right h (le_of_lt hu))
    have : (roundHalfEven (x / (2 : ℚ) ^ (Int.log 2 |y| - 52)) : ℚ)
        ≤ (roundHalfEven (y / (2 : ℚ) ^ (Int.log 2 |y| - 52)) : ℚ) := by exact_mod_cast this
    exact mul_le_mul_of_nonneg_right this (le_of_lt hu)
  · have a := (roundDouble_binade_pos hx).2
    have b := (roundDouble_binade_pos hy).1
    have c : (2 : ℚ) ^ (Int.log 2 |x| + 1) ≤ (2 : ℚ) ^ Int.log 2 |y| :=
      zpow_le_zpow_right₀ (by norm_num) (by omega)
    linarith

/-- Rounding to binary64 is monotone. -/
theorem roundDouble_mono {x y : ℚ} (h : x ≤ y) : roundDouble x ≤ roundDouble y := by
  rcases lt_trichotomy 0 x with hx | hx | hx
  · exact roundDouble_mono_pos hx h
  · rw [← hx] at h ⊢
    rw [roundDouble_zero]
    exact roundDouble_nonneg h
  · rcases le_or_lt 0 y with hy | hy
    · exact le_trans (roundDouble_nonpos (le_of_lt hx)) (roundDouble_nonneg hy)
    · have := roundDouble_mono_pos (x := -y) (y := -x) (by linarith) (by linarith)
      rw [roundDouble_neg, roundDouble_neg] at this
      linarith

/-- A value `n * 2^k` with `|n| < 2^53` is a binary64 value: rounding leaves it unchanged. -/
theorem roundDouble_dyadic (n k : ℤ) (hn : |n| < 2 ^ 53) :
    roundDouble ((n : ℚ) * (2 : ℚ) ^ k) = (n : ℚ) * (2 : ℚ) ^ k := by
  by_cases hx : (n : ℚ) * (2 : ℚ) ^ k = 0
  · rw [hx, roundDouble_zero]
  · have h2 : (2 : ℚ) ≠ 0 := by norm_num
    have hlo := two_zpow_log_le _ hx
    have habs : |(n : ℚ) * (2 : ℚ) ^ k| < (2 : ℚ) ^ (53 + k) := by
      rw [abs_mul, abs_of_pos (by positivity : (0 : ℚ) < (2 : ℚ) ^ k), zpow_add₀ h2]
      have : |(n : ℚ)| < (2 : ℚ) ^ (53 : ℤ) := by
        have : ((|n| : ℤ) : ℚ) < ((2 ^ 53 : ℤ) : ℚ) := by exact_mod_cast hn
        rw [Int.cast_abs] at this
        have h53 : (((2 ^ 53 : ℤ)) : ℚ) = (2 : ℚ) ^ (53 : ℤ) := by norm_num
        rwa [h53] at this
      exact mul_lt_mul_of_pos_right this (by positivity)
    have hlt : (2 : ℚ) ^ Int.log 2 |(n : ℚ) * (2 : ℚ) ^ k| < (2 : ℚ) ^ (53 + k) :=
      lt_of_le_of_lt hlo habs
    have he : Int.log 2 |(n : ℚ) * (2 : ℚ) ^ k| < 53 + k :=
      (zpow_lt_zpow_iff_right₀ (by norm_num : (1 : ℚ) < 2)).1 hlt
    obtain ⟨j, hj⟩ : ∃ j : ℕ, (j : ℤ) = 52 + k - Int.log 2 |(n : ℚ) * (2 : ℚ) ^ k| :=
      ⟨(52 + k - Int.log 2 |(n : ℚ) * (2 : ℚ) ^ k|).toNat, by omega⟩
    have hdiv : (n : ℚ) * (2 : ℚ) ^ k / (2 : ℚ) ^ (Int.log 2 |(n : ℚ) * (2 : ℚ) ^ k| - 52)
        = ((n * 2 ^ j : ℤ) : ℚ) := by
      rw [mul_div_assoc, ← zpow_sub₀ h2]
      have : k - (Int.log 2 |(n : ℚ) * (2 : ℚ) ^ k| - 52) = (j : ℤ) := by omega
      rw [this, zpow_natCast]
      push_cast
      ring
    rw [roundDouble_of_ne _ hx, hdiv, roundHalfEven_intCast]
    push_cast
    rw [mul_assoc, ← zpow_natCast, ← zpow_add₀ h2]
    congr 2
    omega

theorem llround_intCast (n : ℤ) : llround (n : ℚ) = n := by
  unfold llround
  split_ifs with h
  · rw [Int.floor_eq_iff]; constructor <;> linarith
  · have : ⌊-(n : ℚ) + 1 / 2⌋ = -n := by
      rw [Int.floor_eq_iff]; push_cast; constructor <;> linarith
    rw [this]; ring

theorem llround_nonneg {x : ℚ} (hx : 0 ≤ x) : 0 ≤ llround x := by
  unfold llround
  rw [if_pos hx]
  exact Int.floor_nonneg.2 (by linarith)

theorem llround_nonpos {x : ℚ} (hx : x < 0) : llround x ≤ 0 := by
  unfold llround
  rw [if_neg (not_le.2 hx)]
  have : 0 ≤ ⌊-x + 1 / 2⌋ := Int.floor_nonneg.2 (by linarith)
  omega

theorem llround_mono {x y : ℚ} (h : x ≤ y) : llround x ≤ llround y := by
  rcases le_or_lt 0 x with hx | hx
  · unfold llround
    rw [if_pos hx, if_pos (le_trans hx h)]
    exact Int.floor_mono (by linarith)
  · rcases le_or_lt 0 y with hy | hy
    · exact le_trans (llround_nonpos hx) (llround_nonneg hy)
    · unfold llround
      rw [if_neg (not_le.2 hx), if_neg (not_le.2 hy)]
      have : ⌊-y + 1 / 2⌋ ≤ ⌊-x + 1 / 2⌋ := Int.floor_mono (by linarith)
      omega

theorem one_le_llround {x : ℚ} (hx : 1 / 2 ≤ x) : 1 ≤ llround x := by
  have := llround_mono (x := ((1 : ℤ) : ℚ)) (y := x + 1 / 2) (by push_cast; linarith)
  unfold llround at *
  rw [if_pos (by linarith)]
  exact Int.le_floor.2 (by push_cast; linarith)

theorem roundDouble_intCast (n : ℤ) (hn : |n| < 2 ^ 53) : roundDouble (n : ℚ) = n := by
  have := roundDouble_dyadic n 0 hn
  simpa using this

theorem roundDouble_half : roundDouble (1 / 2) = 1 / 2 := by
  have := roundDouble_dyadic 1 (-1) (by norm_num)
  norm_num at this
  exact this

/-! ## The run detector -/

theorem noTarget_ne_S : noTarget ≠ 'S' := by decide

theorem noTarget_ne_W : noTarget ≠ 'W' := by decide

theorem prefixLen_nil (Y : Char) : prefixLen Y [] = 0 := by
  simp [prefixLen]

theorem prefixLen_nonneg (Y : Char) (line : List Char) : 0 ≤ prefixLen Y line := by
  simp [prefixLen]

theorem prefixLen_cons_W (Y : Char) (rest : List Char) :
    prefixLen Y ('W' :: rest) = prefixLen Y rest + 1 := by
  simp [prefixLen, List.takeWhile_cons]

theorem prefixLen_cons_self (Y : Char) (rest : List Char) :
    prefixLen Y (Y :: rest) = prefixLen Y rest + 1 := by
  simp [prefixLen, List.takeWhile_cons]

theorem prefixLen_cons_other (Y ch : Char) (rest : List Char) (h1 : ch ≠ Y)
    (h2 : ch ≠ 'W') : prefixLen Y (ch :: rest) = 0 := by
  simp [prefixLen, List.takeWhile_cons, h1, h2]

/-- Once the anchor is fixed, the loop consumes exactly the longest prefix made of the
anchor and of wilds. -/
theorem initialRunLoop_fixed (line : List Char) (Y : Char) (len : Int)
    (hY : Y ≠ noTarget) (hS : Y ≠ 'S') :
    initialRunLoop line Y len = (Y, len + prefixLen Y line) := by
  induction line generalizing len with
  | nil => simp [initialRunLoop, prefixLen_nil]
  | cons ch rest ih =>
    unfold initialRunLoop
    by_cases h1 : ch = 'S'
    · subst h1
      rw [if_pos rfl, prefixLen_cons_other Y 'S' rest (Ne.symm hS) (by decide)]
      simp
    · rw [if_neg h1]
      by_cases h2 : ch = 'W'
      · subst h2
        rw [if_pos rfl, ih, prefixLen_cons_W]
        congr 1
        ring
      · rw [if_neg h2, if_neg hY]
        by_cases h3 : ch = Y
        · subst h3
          rw [if_pos rfl, ih, prefixLen_cons_self]
          congr 1
          ring
        · rw [if_neg h3, prefixLen_cons_other Y ch rest h3 h2]
          simp

/-- The length only grows, by at most the number of symbols scanned. -/
theorem initialRunLoop_len_bounds (line : List Char) (target : Char) (len : Int) :
    len ≤ (initialRunLoop line target len).2 ∧
      (initialRunLoop line target len).2 ≤ len + line.length := by
  induction line generalizing target len with
  | nil => simp [initialRunLoop]
  | cons ch rest ih =>
    unfold initialRunLoop
    have hlen : ((ch :: rest).length : Int) = rest.length + 1 := by simp
    split_ifs
    · constructor
      · exact le_refl _
      · simp only []; omega
    · have := ih target (len + 1); omega
    · have := ih ch (len + 1); omega
    · have := ih target (len + 1); omega
    · constructor
      · exact le_refl _
      · simp only []; omega

/-- The scan from the initial state, on a line without the character of code 0: the
length reached bounds every wild-extended prefix, and equals the one of the anchor when
an anchor was fixed (the first non-wild symbol), or every one of them otherwise. -/
theorem initialRunLoop_scan (line : List Char) (len : Int)
    (hnul : ∀ ch ∈ line, ch ≠ noTarget) :
    (∀ Y, Y ≠ 'W' → Y ≠ 'S' →
        len + prefixLen Y line ≤ (initialRunLoop line noTarget len).2) ∧
      ((initialRunLoop line noTarget len).1 ≠ noTarget →
        (initialRunLoop line noTarget len).1 ∈ line ∧
        (initialRunLoop line noTarget len).1 ≠ 'W' ∧
        (initialRunLoop line noTarget len).1 ≠ 'S' ∧
        (initialRunLoop line noTarget len).2
          = len + prefixLen (initialRunLoop line noTarget len).1 line ∧
        line.find? (fun ch => decide (ch ≠ 'W'))
          = some (initialRunLoop line noTarget len).1) ∧
      ((initialRunLoop line noTarget len).1 = noTarget →
        (∀ Y, Y ≠ 'W' → Y ≠ 'S' →
          (initialRunLoop line noTarget len).2 = len + prefixLen Y line) ∧
        ∀ ch ∈ line.take ((initialRunLoop line noTarget len).2 - len).toNat, ch = 'W') := by
  induction line generalizing len with
  | nil => simp [initialRunLoop, prefixLen_nil]
  | cons ch rest ih =>
    have hrest : ∀ c ∈ rest, c ≠ noTarget := fun c hc => hnul c (List.mem_cons_of_mem _ hc)
    have hch : ch ≠ noTarget := hnul ch (List.mem_cons_self _ _)
    unfold initialRunLoop
    by_cases h1 : ch = 'S'
    · subst h1
      simp only [if_true]
      refine ⟨?_, fun h => absurd rfl h, fun _ => ⟨?_, ?_⟩⟩
      · intro Y hW hS
        rw [prefixLen_cons_other Y 'S' rest (Ne.symm hS) (by decide)]
        simp
      · intro Y hW hS
        rw [prefixLen_cons_other Y 'S' rest (Ne.symm hS) (by decide)]
        simp
      · simp
    · rw [if_neg h1]
      by_cases h2 : ch = 'W'
      · subst h2
        simp only [if_true]
        obtain ⟨ih1, ih2, ih3⟩ := ih (len + 1) hrest
        refine ⟨?_, ?_, ?_⟩
        · intro Y hW hS
          have := ih1 Y hW hS
          rw [prefixLen_cons_W]
          omega
        · intro h
          obtain ⟨a, b, c, d, e⟩ := ih2 h
          refine ⟨List.mem_cons_of_mem _ a, b, c, ?_, ?_⟩
          · rw [prefixLen_cons_W, d]
            ring
          · rw [List.find?_cons_of_neg _ (by simp)]
            exact e
        · intro h
          obtain ⟨a, b⟩ := ih3 h
          refine ⟨?_, ?_⟩
          · intro Y hW hS
            rw [prefixLen_cons_W, a Y hW hS]
            ring
          · have hge := (initialRunLoop_len_bounds rest noTarget (len + 1)).1
            have hto : ((initialRunLoop rest noTarget (len + 1)).2 - len).toNat
                = ((initialRunLoop rest noTarget (len + 1)).2 - (len + 1)).toNat + 1 := by
              omega
            rw [hto, List.take_succ_cons]
            intro c hc
            rcases List.mem_cons.1 hc with hc | hc
            · exact hc
            · exact b c hc
      · rw [if_neg h2, if_pos rfl, initialRunLoop_fixed rest ch (len + 1) hch h1]
        refine ⟨?_, fun _ => ⟨List.mem_cons_self _ _, h2, h1, ?_, ?_⟩, fun h => absurd h hch⟩
        · intro Y hW hS
          by_cases hY : ch = Y
          · subst hY
            rw [prefixLen_cons_self]
            simp only []
            omega
          · rw [prefixLen_cons_other Y ch rest hY h2]
            have := prefixLen_nonneg ch rest
            simp only []
            omega
        · rw [prefixLen_cons_self]
          simp only []
          ring
        · rw [List.find?_cons_of_pos _ (by simpa using h2)]

/-- No symbol of the alphabet is the character of code 0. -/
theorem symbols_ne_noTarget (ch : Char) (h : ch ∈ symbols) : ch ≠ noTarget := by
  intro hc
  subst hc
  revert h
  decide

/-- A symbol of the alphabet other than the wild and the scatter is a standard symbol. -/
theorem mem_standardSymbols (ch : Char) (h : ch ∈ symbols) (hW : ch ≠ 'W') (hS : ch ≠ 'S') :
    ch ∈ standardSymbols := by
  unfold standardSymbols
  rw [List.mem_filter]
  exact ⟨h, by simp [hW, hS]⟩

theorem standardSymbols_ne (Y : Char) (h : Y ∈ standardSymbols) : Y ≠ 'W' ∧ Y ≠ 'S' := by
  unfold standardSymbols at h
  rw [List.mem_filter] at h
  simpa using h.2

theorem initialRun_fst (line : List Char) :
    (initialRun line).1 = (initialRunLoop line noTarget 0).2 := by
  simp only [initialRun]
  split_ifs <;> rfl

/-- C1: on a line of alphabet symbols, the length returned by `initialRun` is the maximum
over the standard symbols `Y` of the length of the longest prefix made of `Y` and `'W'`
only (it bounds all of them and is reached by one), and when the run contains a non-wild
symbol the returned anchor is the first non-wild symbol of the line. -/
theorem initialRun_longest_run (line : List Char) (hline : ∀ ch ∈ line, ch ∈ symbols) :
    (∀ Y ∈ standardSymbols, prefixLen Y line ≤ (initialRun line).1) ∧
      (∃ Y ∈ standardSymbols, prefixLen Y line = (initialRun line).1) ∧
      ((∃ ch ∈ line.take (initialRun line).1.toNat, ch ≠ 'W') →
        line.find? (fun ch => decide (ch ≠ 'W')) = some (initialRun line).2) := by
  have hnul : ∀ ch ∈ line, ch ≠ noTarget := fun ch h => symbols_ne_noTarget ch (hline ch h)
  obtain ⟨h1, h2, h3⟩ := initialRunLoop_scan line 0 hnul
  rw [initialRun_fst]
  refine ⟨?_, ?_, ?_⟩
  · intro Y hY
    have := h1 Y (standardSymbols_ne Y hY).1 (standardSymbols_ne Y hY).2
    omega
  · by_cases ht : (initialRunLoop line noTarget 0).1 = noTarget
    · refine ⟨'A', by decide, ?_⟩
      have := (h3 ht).1 'A' (by decide) (by decide)
      omega
    · obtain ⟨a, b, c, d, _⟩ := h2 ht
      refine ⟨_, mem_standardSymbols _ (hline _ a) b c, ?_⟩
      omega
  · rintro ⟨ch, hmem, hne⟩
    by_cases ht : (initialRunLoop line noTarget 0).1 = noTarget
    · have := (h3 ht).2 ch (by simpa using hmem)
      exact absurd this hne
    · obtain ⟨_, _, _, _, e⟩ := h2 ht
      rw [e]
      unfold initialRun
      rw [if_neg (fun h => ht h.2)]

theorem initialRun_longest_run_witness :
    (∀ ch ∈ ['W', 'W', 'A', 'A', 'C', 'S', 'A', 'A', 'A', 'A'], ch ∈ symbols) ∧
      ((∀ Y ∈ standardSymbols,
          prefixLen Y ['W', 'W', 'A', 'A', 'C', 'S', 'A', 'A', 'A', 'A']
            ≤ (initialRun ['W', 'W', 'A', 'A', 'C', 'S', 'A', 'A', 'A', 'A']).1) ∧
        (∃ Y ∈ standardSymbols,
          prefixLen Y ['W', 'W', 'A', 'A', 'C', 'S', 'A', 'A', 'A', 'A']
            = (initialRun ['W', 'W', 'A', 'A', 'C', 'S', 'A', 'A', 'A', 'A']).1) ∧
        ((∃ ch ∈ (['W', 'W', 'A', 'A', 'C', 'S', 'A', 'A', 'A', 'A']).take
            (initialRun ['W', 'W', 'A', 'A', 'C', 'S', 'A', 'A', 'A', 'A']).1.toNat,
            ch ≠ 'W') →
          (['W', 'W', 'A', 'A', 'C', 'S', 'A', 'A', 'A', 'A']).find?
            (fun ch => decide (ch ≠ 'W'))
            = some (initialRun ['W', 'W', 'A', 'A', 'C', 'S', 'A', 'A', 'A', 'A']).2)) :=
  ⟨by decide,
    initialRun_longest_run ['W', 'W', 'A', 'A', 'C', 'S', 'A', 'A', 'A', 'A'] (by decide)⟩

/-- C6: for every sequence of symbols, the length returned by `initialRun` lies between 0
and the length of the sequence, both included. -/
theorem initialRun_length_bounds (line : List Char) :
    0 ≤ (initialRun line).1 ∧ (initialRun line).1 ≤ (line.length : Int) := by
  rw [initialRun_fst]
  have := initialRunLoop_len_bounds line noTarget 0
  omega

theorem payForRun_short (sym : Char) (run : Int) (h : run < 3) : payForRun sym run = 0 := by
  unfold payForRun
  rw [if_pos h]

/-- C7: a sequence whose first symbol is the scatter `'S'` gives length 0 with no anchor
(`target` keeps its initial value 0), whatever follows, and the line adds nothing to the
total: the row step and the column step of `evaluate` leave the state unchanged. -/
theorem initialRun_scatter_first (rest : List Char) (bet : Int) (g : Game)
    (st : Int × List String) :
    initialRun ('S' :: rest) = (0, noTarget) ∧ lineWin bet ('S' :: rest) = 0 ∧
      (∀ r, rowLine g.grid r = 'S' :: rest → rowStep g bet st r = st) ∧
      (∀ c, colLine g.grid c = 'S' :: rest → colStep g bet st c = st) := by
  have h0 : initialRun ('S' :: rest) = (0, noTarget) := by
    simp [initialRun, initialRunLoop]
  refine ⟨h0, ?_, ?_, ?_⟩
  · simp [lineWin, linePayout, h0, payForRun_short]
  · intro r hr
    simp [rowStep, hr, h0, payForRun_short]
  · intro c hc
    simp [colStep, hc, h0, payForRun_short]

theorem initialRun_scatter_first_witness :
    rowStep scatterEdge 10000 (0, []) 0 = (0, []) :=
  (initialRun_scatter_first ['A', 'A', 'A', 'A', 'A', 'A', 'A', 'A', 'A'] 10000 scatterEdge
    (0, [])).2.2.1 0 (by decide)

/-! ## The pay table -/

theorem abs_llround_sub_le (x : ℚ) : |(llround x : ℚ) - x| ≤ 1 / 2 := by
  unfold llround
  rw [abs_le]
  split_ifs with h
  · have h1 := Int.floor_le (x + 1 / 2)
    have h2 := Int.lt_floor_add_one (x + 1 / 2)
    constructor <;> linarith
  · have h1 := Int.floor_le (-x + 1 / 2)
    have h2 := Int.lt_floor_add_one (-x + 1 / 2)
    push_cast
    constructor <;> linarith

theorem lit_five_tenths : lit (5 / 10) = 1 / 2 := by
  have := roundDouble_dyadic 1 (-1) (by norm_num)
  unfold lit
  norm_num at this ⊢
  exact this

theorem lit_eight_tenths : lit (8 / 10) = 3602879701896397 / 4503599627370496 := by
  unfold lit
  rw [roundDouble_eq (8 / 10) (-1) 7205759403792794 (by norm_num [abs_of_pos])
    (by norm_num [abs_of_pos]) (by norm_num [abs_lt])]
  norm_num

theorem lit_one : lit 1 = 1 := by
  have := roundDouble_intCast 1 (by norm_num)
  unfold lit
  simpa using this

theorem lit_thirteen_tenths : lit (13 / 10) = 5854679515581645 / 4503599627370496 := by
  unfold lit
  rw [roundDouble_eq (13 / 10) 0 5854679515581645 (by norm_num [abs_of_pos])
    (by norm_num [abs_of_pos]) (by norm_num [abs_lt])]
  norm_num

theorem lit_seventeen_tenths : lit (17 / 10) = 7656119366529843 / 4503599627370496 := by
  unfold lit
  rw [roundDouble_eq (17 / 10) 0 7656119366529843 (by norm_num [abs_of_pos])
    (by norm_num [abs_of_pos]) (by norm_num [abs_lt])]
  norm_num

theorem lit_twentyfive_tenths : lit (25 / 10) = 5 / 2 := by
  have := roundDouble_dyadic 5 (-1) (by norm_num)
  unfold lit
  norm_num at this ⊢
  exact this

theorem lit_four : lit 4 = 4 := by
  have := roundDouble_intCast 4 (by norm_num)
  unfold lit
  simpa using this

theorem lit_six : lit 6 = 6 := by
  have := roundDouble_intCast 6 (by norm_num)
  unfold lit
  simpa using this

/-- The entries of the pay table, one case per key. -/
theorem basePay_cases (sym : Char) (b : Double) (h : basePay sym = some b) :
    (sym = 'A' ∧ b = lit (5 / 10)) ∨ (sym = 'B' ∧ b = lit (8 / 10)) ∨ (sym = 'C' ∧ b = lit 1) ∨
      (sym = 'D' ∧ b = lit (13 / 10)) ∨ (sym = 'E' ∧ b = lit (17 / 10)) ∨
      (sym = 'F' ∧ b = lit (25 / 10)) ∨ (sym = 'G' ∧ b = lit 4) ∨ (sym = 'H' ∧ b = lit 6) := by
  unfold basePay basePayTable at h
  simp only [List.lookup] at h
  repeat' split at h
  all_goals simp_all

/-- Every base pay lies between 0.5 and 6, and below 6 only `'H'` is excluded. -/
theorem basePay_bounds (sym : Char) (b : Double) (h : basePay sym = some b) :
    1 / 2 ≤ b ∧ b ≤ 6 ∧ (sym ≠ 'H' → b ≤ 4) := by
  rcases basePay_cases sym b h with ⟨hs, hb⟩ | ⟨hs, hb⟩ | ⟨hs, hb⟩ | ⟨hs, hb⟩ | ⟨hs, hb⟩ |
    ⟨hs, hb⟩ | ⟨hs, hb⟩ | ⟨hs, hb⟩
  · rw [hb, lit_five_tenths]; norm_num
  · rw [hb, lit_eight_tenths]; norm_num
  · rw [hb, lit_one]; norm_num
  · rw [hb, lit_thirteen_tenths]; norm_num
  · rw [hb, lit_seventeen_tenths]; norm_num
  · rw [hb, lit_twentyfive_tenths]; norm_num
  · rw [hb, lit_four]; norm_num
  · rw [hb, lit_six]; refine ⟨by norm_num, le_refl _, fun hne => absurd hs hne⟩

theorem one_le_ofInt {n : Int} (h : 1 ≤ n) : 1 ≤ ofInt n := by
  have h1 : roundDouble ((1 : ℤ) : ℚ) ≤ roundDouble (n : ℚ) :=
    roundDouble_mono (by exact_mod_cast h)
  rw [roundDouble_intCast 1 (by norm_num)] at h1
  unfold ofInt
  exact_mod_cast h1

theorem ofInt_nonneg {n : Int} (h : 0 ≤ n) : 0 ≤ ofInt n :=
  roundDouble_nonneg (by exact_mod_cast h)

theorem ofInt_mono {m n : Int} (h : m ≤ n) : ofInt m ≤ ofInt n :=
  roundDouble_mono (by exact_mod_cast h)

theorem ofInt_exact (n : Int) (h : |n| < 2 ^ 53) : ofInt n = n :=
  roundDouble_intCast n h

theorem half_le_dmul {a b : Double} (ha : 1 / 2 ≤ a) (hb : 1 ≤ b) : 1 / 2 ≤ dmul a b := by
  have h1 : roundDouble (1 / 2) ≤ roundDouble (a * b) := roundDouble_mono (by nlinarith)
  rw [roundDouble_half] at h1
  exact h1

/-- The multiplier is never negative. -/
theorem payForRun_nonneg (sym : Char) (run : Int) : 0 ≤ payForRun sym run := by
  unfold payForRun
  split_ifs with h
  · exact le_refl _
  · cases hb : basePay sym with
    | none => exact le_refl _
    | some base =>
      have := half_le_dmul (basePay_bounds sym base hb).1
        (one_le_ofInt (n := run - 2) (by omega))
      simp only []
      linarith

/-- A positive multiplier is at least 0.5. -/
theorem half_le_payForRun (sym : Char) (run : Int) (h : 0 < payForRun sym run) :
    1 / 2 ≤ payForRun sym run := by
  unfold payForRun at h ⊢
  split_ifs at h ⊢ with h3
  · exact absurd h (lt_irrefl _)
  · cases hb : basePay sym with
    | none => rw [hb] at h; exact absurd h (lt_irrefl _)
    | some base =>
      exact half_le_dmul (basePay_bounds sym base hb).1 (one_le_ofInt (n := run - 2) (by omega))

/-- The multiplier does not decrease when the run gets longer. -/
theorem payForRun_mono (sym : Char) {L1 L2 : Int} (h : L1 ≤ L2) :
    payForRun sym L1 ≤ payForRun sym L2 := by
  by_cases h1 : L1 < 3
  · rw [payForRun_short sym L1 h1]
    exact payForRun_nonneg sym L2
  · have h2 : ¬ L2 < 3 := by omega
    unfold payForRun
    rw [if_neg h1, if_neg h2]
    cases hb : basePay sym with
    | none => exact le_refl _
    | some base =>
      have hbase := (basePay_bounds sym base hb).1
      exact roundDouble_mono (mul_le_mul_of_nonneg_left (ofInt_mono (by omega)) (by linarith))

theorem dmul_zero (a : Double) : dmul a 0 = 0 := by
  simp [dmul, roundDouble_zero]

theorem llround_zero : llround 0 = 0 := by
  have := llround_intCast 0
  simpa using this

/-- The guard `m > 0` only skips multipliers equal to 0, for which the rounded
product is 0 as well. -/
theorem linePayout_eq (bet : Int) (sym : Char) (run : Int) :
    linePayout bet sym run = llround (dmul (ofInt bet) (payForRun sym run)) := by
  unfold linePayout
  simp only []
  split_ifs with h
  · rfl
  · have h0 : payForRun sym run = 0 := le_antisymm (not_lt.1 h) (payForRun_nonneg sym run)
    rw [h0, dmul_zero, llround_zero]

theorem initialRunLoop_wilds (L : Nat) (rest : List Char) (target : Char) (len : Int) :
    initialRunLoop (List.replicate L 'W' ++ rest) target len
      = initialRunLoop rest target (len + L) := by
  induction L generalizing len with
  | zero => simp
  | succ n ih =>
    rw [List.replicate_succ, List.cons_append, initialRunLoop, if_neg (by decide), if_pos rfl,
      ih]
    congr 1
    push_cast
    ring

/-- C8: for every `L ≥ 1`, on `L` wilds followed by nothing or by a scatter (and then
anything) `initialRun` returns length `L` with anchor `'H'`; `'H'` is a standard symbol,
its base pay is 6.0, no base pay of the table exceeds it and every other one is smaller. -/
theorem initialRun_all_wild (L : Nat) (hL : 1 ≤ L) (rest : List Char)
    (hrest : rest = [] ∨ ∃ t, rest = 'S' :: t) :
    initialRun (List.replicate L 'W' ++ rest) = ((L : Int), 'H') ∧
      'H' ∈ standardSymbols ∧ basePay 'H' = some (lit 6) ∧
      ∀ sym b, basePay sym = some b → b ≤ lit 6 ∧ (sym ≠ 'H' → b < lit 6) := by
  refine ⟨?_, by decide, rfl, ?_⟩
  · have hloop : initialRunLoop (List.replicate L 'W' ++ rest) noTarget 0
        = (noTarget, (L : Int)) := by
      rw [initialRunLoop_wilds]
      rcases hrest with h | ⟨t, h⟩
      · subst h; simp [initialRunLoop]
      · subst h; simp [initialRunLoop]
    unfold initialRun
    rw [hloop]
    have : (0 : Int) < (L : Int) := by omega
    simp [this]
  · intro sym b hb
    obtain ⟨_, h6, h4⟩ := basePay_bounds sym b hb
    rw [lit_six]
    exact ⟨h6, fun hne => lt_of_le_of_lt (h4 hne) (by norm_num)⟩

theorem initialRun_all_wild_witness :
    initialRun (List.replicate 3 'W' ++ ['S', 'A']) = (((3 : Nat) : Int), 'H') ∧
      'H' ∈ standardSymbols ∧ basePay 'H' = some (lit 6) ∧
      ∀ sym b, basePay sym = some b → b ≤ lit 6 ∧ (sym ≠ 'H' → b < lit 6) :=
  initialRun_all_wild 3 (by decide) ['S', 'A'] (Or.inr ⟨['A'], rfl⟩)

/-! ## The payout rules -/

theorem rowStep_fst (g : Game) (bet : Int) (st : Int × List String) (r : Fin ROWS) :
    (rowStep g bet st r).1 = st.1 + lineWin bet (rowLine g.grid r) := by
  unfold rowStep lineWin linePayout
  simp only []
  split_ifs <;> simp

theorem colStep_fst (g : Game) (bet : Int) (st : Int × List String) (c : Fin COLS) :
    (colStep g bet st c).1 = st.1 + lineWin bet (colLine g.grid c) := by
  unfold colStep lineWin linePayout
  simp only []
  split_ifs <;> simp

/-- C2: for a symbol with base pay `B` in the pay table, the multiplier of `payForRun` is
the binary64 product `B * (L - 2)` when `L ≥ 3` (the conversion of `L - 2` to `double`
is exact below `2^53`) and 0 when `L < 3`; the line payout is `llround` of the binary64
product `bet * multiplier`, an integer within 1/2 of it, and this is the amount the row
step and the column step add to the total for a line with that run. -/
theorem line_payout_rule (sym : Char) (B : Double) (L bet : Int)
    (hB : basePay sym = some B) :
    (3 ≤ L → payForRun sym L = dmul B (ofInt (L - 2))) ∧
      (3 ≤ L → L < 2 ^ 53 → payForRun sym L = roundDouble (B * ((L - 2 : Int) : ℚ))) ∧
      (L < 3 → payForRun sym L = 0) ∧
      linePayout bet sym L = llround (dmul (ofInt bet) (payForRun sym L)) ∧
      |((linePayout bet sym L : Int) : ℚ) - dmul (ofInt bet) (payForRun sym L)| ≤ 1 / 2 ∧
      (∀ (g : Game) (st : Int × List String) (r : Fin ROWS),
        initialRun (rowLine g.grid r) = (L, sym) →
          (rowStep g bet st r).1 = st.1 + linePayout bet sym L) ∧
      (∀ (g : Game) (st : Int × List String) (c : Fin COLS),
        initialRun (colLine g.grid c) = (L, sym) →
          (colStep g bet st c).1 = st.1 + linePayout bet sym L) := by
  have h3 : 3 ≤ L → payForRun sym L = dmul B (ofInt (L - 2)) := by
    intro h
    unfold payForRun
    rw [if_neg (by omega), hB]
  refine ⟨h3, ?_, payForRun_short sym L, linePayout_eq bet sym L, ?_, ?_, ?_⟩
  · intro h hlt
    rw [h3 h, dmul, ofInt_exact (L - 2) (by rw [abs_lt]; constructor <;> omega)]
  · rw [linePayout_eq]
    exact abs_llround_sub_le _
  · intro g st r hrun
    rw [rowStep_fst, lineWin, hrun]
  · intro g st c hrun
    rw [colStep_fst, lineWin, hrun]

theorem line_payout_rule_witness :
    basePay 'A' = some (lit (5 / 10)) ∧ payForRun 'A' 10 = dmul (lit (5 / 10)) (ofInt (10 - 2)) ∧
      (rowStep allA 10000 (0, []) 0).1 = 0 + linePayout 10000 'A' 10 :=
  ⟨rfl, (line_payout_rule 'A' (lit (5 / 10)) 10 10000 rfl).1 (by decide),
    (line_payout_rule 'A' (lit (5 / 10)) 10 10000 rfl).2.2.2.2.2.1 allA (0, []) 0 (by decide)⟩

/-- C9: for a fixed anchor symbol and a non-negative bet the line payout does not decrease
when the run length grows, and it is zero for every run length below 3. -/
theorem linePayout_mono (sym : Char) (bet L1 L2 : Int) (hbet : 0 ≤ bet) (h : L1 ≤ L2) :
    linePayout bet sym L1 ≤ linePayout bet sym L2 ∧
      ∀ L, L < 3 → linePayout bet sym L = 0 := by
  constructor
  · rw [linePayout_eq, linePayout_eq]
    exact llround_mono (roundDouble_mono
      (mul_le_mul_of_nonneg_left (payForRun_mono sym h) (ofInt_nonneg hbet)))
  · intro L hL
    rw [linePayout_eq, payForRun_short sym L hL, dmul_zero, llround_zero]

theorem linePayout_mono_witness :
    (0 : Int) ≤ 10000 ∧ (3 : Int) ≤ 4 ∧ linePayout 10000 'A' 3 ≤ linePayout 10000 'A' 4 ∧
      ∀ L, L < 3 → linePayout 10000 'A' L = 0 :=
  ⟨by decide, by decide, linePayout_mono 'A' 10000 3 4 (by decide) (by decide)⟩

/-! ## The orchestrator -/

/-- A loop whose step adds an amount and, when show-wins is on and the amount is paid,
pushes one note: the final state in closed form. -/
theorem foldl_step_eq {α : Type} (step : Int × List String → α → Int × List String)
    (w : α → Int) (p : α → Bool) (n : α → String) (shown : Bool)
    (hstep : ∀ st x, step st x
      = (st.1 + w x, st.2 ++ (if shown = true ∧ p x = true then [n x] else [])))
    (l : List α) (st : Int × List String) :
    l.foldl step st
      = (st.1 + (l.map w).sum, st.2 ++ (if shown = true then (l.filter p).map n else [])) := by
  induction l generalizing st with
  | nil => simp
  | cons x rest ih =>
    rw [List.foldl_cons, ih, hstep]
    cases shown <;> cases hp : p x <;> simp [List.filter_cons, hp, add_assoc]

theorem rowStep_eq (g : Game) (bet : Int) (st : Int × List String) (r : Fin ROWS) :
    rowStep g bet st r = (st.1 + lineWin bet (rowLine g.grid r),
      st.2 ++ (if g.showWins = true ∧
          decide (0 < payForRun (initialRun (rowLine g.grid r)).2
            (initialRun (rowLine g.grid r)).1) = true
        then [rowNote r.val (initialRun (rowLine g.grid r)).2 (initialRun (rowLine g.grid r)).1
          (lineWin bet (rowLine g.grid r))] else [])) := by
  unfold rowStep lineWin linePayout
  simp only []
  by_cases hm : 0 < payForRun (initialRun (rowLine g.grid r)).2 (initialRun (rowLine g.grid r)).1
  · cases hs : g.showWins <;> simp [hm]
  · simp [hm]

theorem colStep_eq (g : Game) (bet : Int) (st : Int × List String) (c : Fin COLS) :
    colStep g bet st c = (st.1 + lineWin bet (colLine g.grid c),
      st.2 ++ (if g.showWins = true ∧
          decide (0 < payForRun (initialRun (colLine g.grid c)).2
            (initialRun (colLine g.grid c)).1) = true
        then [colNote c.val (initialRun (colLine g.grid c)).2 (initialRun (colLine g.grid c)).1
          (lineWin bet (colLine g.grid c))] else [])) := by
  unfold colStep lineWin linePayout
  simp only []
  by_cases hm : 0 < payForRun (initialRun (colLine g.grid c)).2 (initialRun (colLine g.grid c)).1
  · cases hs : g.showWins <;> simp [hm]
  · simp [hm]

theorem scatterStage_eq (g : Game) (bet : Int) (st : Int × List String) :
    scatterStage g bet st = (st.1 + scatterPayout bet (countScatter g.grid),
      st.2 ++ (if g.showWins = true ∧ 5 ≤ countScatter g.grid
        then [scatterNote (countScatter g.grid) (scatterPayout bet (countScatter g.grid))]
        else [])) := by
  unfold scatterStage scatterPayout
  simp only []
  by_cases hm : 5 ≤ countScatter g.grid
  · cases hs : g.showWins <;> simp [hm]
  · simp [hm]

/-- The result of `evaluate` in closed form: the total is the sum over the rows, the
columns and the scatter; the notes are appended only when show-wins is on. -/
theorem evaluate_eq (g : Game) (bet : Int) (winNotes : List String) :
    evaluate g bet winNotes
      = (((List.finRange ROWS).map fun r => lineWin bet (rowLine g.grid r)).sum
          + ((List.finRange COLS).map fun c => lineWin bet (colLine g.grid c)).sum
          + scatterPayout bet (countScatter g.grid),
        winNotes ++ (if g.showWins = true then paidDescriptions g.grid bet else [])) := by
  unfold evaluate
  simp only []
  rw [foldl_step_eq (rowStep g bet) _ _ _ g.showWins (rowStep_eq g bet),
    foldl_step_eq (colStep g bet) _ _ _ g.showWins (colStep_eq g bet), scatterStage_eq]
  unfold paidDescriptions
  cases hs : g.showWins <;> by_cases hm : 5 ≤ countScatter g.grid <;> simp [hm]

theorem foldl_count_eq {α : Type} (p : α → Prop) [DecidablePred p] (l : List α) (a : Int) :
    l.foldl (fun scat c => if p c then scat + 1 else scat) a
      = a + (l.map fun c => if p c then (1 : Int) else 0).sum := by
  induction l generalizing a with
  | nil => simp
  | cons x rest ih =>
    rw [List.foldl_cons, ih]
    by_cases hp : p x <;> simp [hp, add_assoc]

theorem foldl_add_eq {α : Type} (F : α → Int) (l : List α) (a : Int) :
    l.foldl (fun scat r => scat + F r) a = a + (l.map F).sum := by
  induction l generalizing a with
  | nil => simp
  | cons x rest ih =>
    rw [List.foldl_cons, ih]
    simp [add_assoc]

/-- The nested counting loops of `evaluate` count the cells of the grid that hold `'S'`. -/
theorem countScatter_eq_scatterCells (grid : Grid) :
    countScatter grid = (scatterCells grid : Int) := by
  unfold countScatter scatterCells
  simp only [foldl_count_eq]
  rw [foldl_add_eq, Finset.card_filter, Fintype.sum_prod_type]
  push_cast
  simp only [Fin.sum_univ_def, zero_add]

theorem scatterCells_le (grid : Grid) : scatterCells grid ≤ 100 := by
  unfold scatterCells
  exact le_trans (Finset.card_filter_le _ _) (by simp [ROWS, COLS])

theorem scatterPayout_five : scatterPayout 10000 5 = 8000 := by
  have h1 : ofInt (5 - 4) = 1 := by
    have := ofInt_exact 1 (by norm_num)
    simpa using this
  have h2 : dmul scatterStep 1 = 3602879701896397 / 4503599627370496 := by
    unfold dmul scatterStep
    rw [lit_eight_tenths, mul_one]
    have := roundDouble_dyadic 3602879701896397 (-52) (by norm_num)
    norm_num at this ⊢
    exact this
  have h3 : ofInt 10000 = 10000 := by
    have := ofInt_exact 10000 (by norm_num)
    simpa using this
  have h4 : dmul 10000 (3602879701896397 / 4503599627370496) = 8000 := by
    unfold dmul
    rw [roundDouble_eq (10000 * (3602879701896397 / 4503599627370496)) 12 8796093022208000
      (by norm_num [abs_of_pos]) (by norm_num [abs_of_pos]) (by norm_num [abs_lt])]
    norm_num
  unfold scatterPayout
  rw [if_pos (le_refl _), h1, h2, h3, h4]
  have := llround_intCast 8000
  simpa using this

/-- C3: the nested loops count the `'S'` cells of the whole grid; the scatter block of
`evaluate` adds 0 when that count is at most 4 and `llround` of the binary64 product
`bet * (0.8 * (count - 4))` when it is 5 or more (the conversion of `count - 4` is exact);
with exactly 5 scatters at bet 10,000 it adds exactly 8,000. This block is the last stage
of `evaluate`, run once after the two line loops. -/
theorem scatter_payout_rule (g : Game) (bet : Int) (st : Int × List String) :
    countScatter g.grid = (scatterCells g.grid : Int) ∧ scatterStep = lit (8 / 10) ∧
      (scatterCells g.grid ≤ 4 → (scatterStage g bet st).1 = st.1) ∧
      (5 ≤ scatterCells g.grid → (scatterStage g bet st).1 = st.1 +
        llround (dmul (ofInt bet)
          (dmul scatterStep (ofInt ((scatterCells g.grid : Int) - 4))))) ∧
      ofInt ((scatterCells g.grid : Int) - 4) = (((scatterCells g.grid : Int) - 4 : Int) : ℚ) ∧
      (scatterCells g.grid = 5 → (scatterStage g 10000 st).1 = st.1 + 8000) ∧
      (∀ winNotes, evaluate g bet winNotes = scatterStage g bet
        ((List.finRange COLS).foldl (colStep g bet)
          ((List.finRange ROWS).foldl (rowStep g bet) (0, winNotes)))) := by
  have hc := countScatter_eq_scatterCells g.grid
  have hle := scatterCells_le g.grid
  refine ⟨hc, rfl, ?_, ?_, ?_, ?_, fun _ => rfl⟩
  · intro h
    rw [scatterStage_eq, scatterPayout, if_neg (by omega)]
    simp
  · intro h
    rw [scatterStage_eq, scatterPayout, if_pos (by omega), hc]
  · exact ofInt_exact _ (by rw [abs_lt]; constructor <;> omega)
  · intro h
    rw [scatterStage_eq, hc, h]
    simp only []
    rw [show ((5 : Nat) : Int) = 5 from rfl, scatterPayout_five]

theorem scatter_payout_rule_witness :
    scatterCells fiveScatters.grid = 5 ∧
      (scatterStage fiveScatters 10000 (0, [])).1 = (0, ([] : List String)).1 + 8000 := by
  have h5 : scatterCells fiveScatters.grid = 5 := by
    have h := countScatter_eq_scatterCells fiveScatters.grid
    have hd : countScatter fiveScatters.grid = 5 := by decide
    omega
  exact ⟨h5, (scatter_payout_rule fiveScatters 10000 (0, [])).2.2.2.2.2.1 h5⟩

/-- C4: for every grid and bet, the total returned by `evaluate` is the sum of the line
payouts of the 10 rows (cells `grid[r][0..9]`) plus the sum of the line payouts of the 10
columns (cells `grid[0..9][c]`) plus the scatter payout, counted once; a line payout is
the payout rule applied to `initialRun` of the line. -/
theorem evaluate_total (g : Game) (bet : Int) (winNotes : List String) :
    (evaluate g bet winNotes).1
        = (∑ r : Fin ROWS, lineWin bet (rowLine g.grid r))
          + (∑ c : Fin COLS, lineWin bet (colLine g.grid c))
          + scatterPayout bet (countScatter g.grid) ∧
      (∀ r, rowLine g.grid r = List.ofFn fun c => g.grid r c) ∧
      (∀ c, colLine g.grid c = List.ofFn fun r => g.grid r c) ∧
      (∀ line, lineWin bet line
        = if 0 < payForRun (initialRun line).2 (initialRun line).1
          then llround (dmul (ofInt bet) (payForRun (initialRun line).2 (initialRun line).1))
          else 0) := by
  refine ⟨?_, ?_, ?_, fun line => rfl⟩
  · rw [evaluate_eq]
    simp only [Fin.sum_univ_def]
  · intro r
    rw [rowLine, List.ofFn_eq_map]
  · intro c
    rw [colLine, List.ofFn_eq_map]

theorem llround_neg_half_le {x : ℚ} (hx : x ≤ -(1 / 2)) : llround x ≤ -1 := by
  unfold llround
  rw [if_neg (by linarith)]
  have : 1 ≤ ⌊-x + 1 / 2⌋ := Int.le_floor.2 (by push_cast; linarith)
  omega

theorem ofInt_le_neg_one {n : Int} (h : n ≤ -1) : ofInt n ≤ -1 := by
  have h1 : roundDouble (n : ℚ) ≤ roundDouble (((-1 : ℤ)) : ℚ) :=
    roundDouble_mono (by exact_mod_cast h)
  rw [roundDouble_intCast (-1) (by norm_num)] at h1
  unfold ofInt
  exact_mod_cast h1

/-- A non-zero bet times a multiplier of at least 0.5 never rounds to 0. -/
theorem llround_dmul_ne_zero {bet : Int} {m : Double} (hbet : bet ≠ 0) (hm : 1 / 2 ≤ m) :
    llround (dmul (ofInt bet) m) ≠ 0 := by
  rcases lt_or_gt_of_ne hbet with h | h
  · have h1 := ofInt_le_neg_one (n := bet) (by omega)
    have h2 : roundDouble (ofInt bet * m) ≤ roundDouble (-(1 / 2)) :=
      roundDouble_mono (by nlinarith)
    rw [roundDouble_neg, roundDouble_half] at h2
    have := llround_neg_half_le h2
    unfold dmul
    omega
  · have h1 := one_le_ofInt (n := bet) (by omega)
    have h2 : roundDouble (1 / 2) ≤ roundDouble (ofInt bet * m) :=
      roundDouble_mono (by nlinarith)
    rw [roundDouble_half] at h2
    have := one_le_llround h2
    unfold dmul
    omega

theorem linePayout_ne_zero_iff {bet : Int} (hbet : bet ≠ 0) (sym : Char) (run : Int) :
    linePayout bet sym run ≠ 0 ↔ 0 < payForRun sym run := by
  constructor
  · intro h
    by_contra hm
    exact h (by unfold linePayout; simp only []; rw [if_neg hm])
  · intro hm
    unfold linePayout
    simp only []
    rw [if_pos hm]
    exact llround_dmul_ne_zero hbet (half_le_payForRun sym run hm)

theorem scatterStep_ge_half : 1 / 2 ≤ scatterStep := by
  unfold scatterStep
  rw [lit_eight_tenths]
  norm_num

theorem scatterPayout_ne_zero_iff {bet : Int} (hbet : bet ≠ 0) (scat : Int) :
    scatterPayout bet scat ≠ 0 ↔ 5 ≤ scat := by
  constructor
  · intro h
    by_contra hm
    exact h (by unfold scatterPayout; rw [if_neg hm])
  · intro hm
    unfold scatterPayout
    rw [if_pos hm]
    exact llround_dmul_ne_zero hbet
      (half_le_dmul scatterStep_ge_half (one_le_ofInt (n := scat - 4) (by omega)))

/-- With a non-zero bet, the lines and the scatter that are paid are exactly the non-zero
wins. -/
theorem paidDescriptions_eq_winDescriptions (grid : Grid) {bet : Int} (hbet : bet ≠ 0) :
    paidDescriptions grid bet = winDescriptions grid bet := by
  unfold paidDescriptions winDescriptions
  have hrow : ((List.finRange ROWS).filter fun r =>
        0 < payForRun (initialRun (rowLine grid r)).2 (initialRun (rowLine grid r)).1)
      = (List.finRange ROWS).filter fun r => lineWin bet (rowLine grid r) ≠ 0 := by
    apply List.filter_congr
    intro r _
    have := linePayout_ne_zero_iff hbet (initialRun (rowLine grid r)).2
      (initialRun (rowLine grid r)).1
    unfold lineWin
    by_cases hm : 0 < payForRun (initialRun (rowLine grid r)).2 (initialRun (rowLine grid r)).1
    · simp [hm, this.2 hm]
    · have h0 : ¬ linePayout bet (initialRun (rowLine grid r)).2
          (initialRun (rowLine grid r)).1 ≠ 0 := fun h => hm (this.1 h)
      simp [hm, not_not.1 h0]
  have hcol : ((List.finRange COLS).filter fun c =>
        0 < payForRun (initialRun (colLine grid c)).2 (initialRun (colLine grid c)).1)
      = (List.finRange COLS).filter fun c => lineWin bet (colLine grid c) ≠ 0 := by
    apply List.filter_congr
    intro c _
    have := linePayout_ne_zero_iff hbet (initialRun (colLine grid c)).2
      (initialRun (colLine grid c)).1
    unfold lineWin
    by_cases hm : 0 < payForRun (initialRun (colLine grid c)).2 (initialRun (colLine grid c)).1
    · simp [hm, this.2 hm]
    · have h0 : ¬ linePayout bet (initialRun (colLine grid c)).2
          (initialRun (colLine grid c)).1 ≠ 0 := fun h => hm (this.1 h)
      simp [hm, not_not.1 h0]
  have hsc := scatterPayout_ne_zero_iff hbet (countScatter grid)
  rw [hrow, hcol]
  by_cases hm : 5 ≤ countScatter grid
  · rw [if_pos hm, if_pos (hsc.2 hm)]
  · rw [if_neg hm, if_neg (fun h => hm (hsc.1 h))]

/-- C5 (amended): with show-wins on and a non-zero bet, the notes produced by `evaluate`
from an empty list are exactly one description per non-zero win and nothing else: winning
rows by increasing index, then winning columns by increasing index, then the scatter win
if any, each line description naming the line, the anchor, the run length and the amount.
With show-wins off the list of notes is returned as it was passed. -/
theorem evaluate_descriptions (g : Game) (bet : Int) :
    (g.showWins = true → bet ≠ 0 → (evaluate g bet []).2 = winDescriptions g.grid bet) ∧
      (g.showWins = false → ∀ winNotes, (evaluate g bet winNotes).2 = winNotes) := by
  constructor
  · intro hs hbet
    rw [evaluate_eq, hs, ← paidDescriptions_eq_winDescriptions g.grid hbet]
    simp
  · intro hs winNotes
    rw [evaluate_eq, hs]
    simp

theorem evaluate_descriptions_witness :
    (evaluate allA 10000 []).2 = winDescriptions allA.grid 10000 ∧
      (evaluate allAQuiet 10000 ["kept"]).2 = ["kept"] :=
  ⟨(evaluate_descriptions allA 10000).1 rfl (by decide),
    (evaluate_descriptions allAQuiet 10000).2 rfl ["kept"]⟩

theorem payForRun_pos (sym : Char) (B : Double) (run : Int) (hB : basePay sym = some B)
    (h : 3 ≤ run) : 0 < payForRun sym run := by
  unfold payForRun
  rw [if_neg (by omega), hB]
  have := half_le_dmul (basePay_bounds sym B hB).1 (one_le_ofInt (n := run - 2) (by omega))
  simp only []
  linarith

theorem ofInt_zero : ofInt 0 = 0 := by
  simp [ofInt, roundDouble_zero]

theorem linePayout_zero_bet (sym : Char) (run : Int) : linePayout 0 sym run = 0 := by
  rw [linePayout_eq, ofInt_zero, dmul, zero_mul, roundDouble_zero, llround_zero]

theorem scatterPayout_zero_bet (scat : Int) : scatterPayout 0 scat = 0 := by
  unfold scatterPayout
  split_ifs
  · rw [ofInt_zero, dmul, zero_mul, roundDouble_zero, llround_zero]
  · rfl

theorem allA_row_run : initialRun (rowLine allA.grid 0) = (10, 'A') := by decide

/-- Row 0 of the all-`'A'` grid is paid, so its note is among the paid descriptions. -/
theorem allA_paid_ne_nil (bet : Int) : paidDescriptions allA.grid bet ≠ [] := by
  have hpos : 0 < payForRun (initialRun (rowLine allA.grid 0)).2
      (initialRun (rowLine allA.grid 0)).1 := by
    rw [allA_row_run]
    exact payForRun_pos 'A' (lit (5 / 10)) 10 rfl (by decide)
  have hmem : (0 : Fin ROWS) ∈ (List.finRange ROWS).filter fun r =>
      0 < payForRun (initialRun (rowLine allA.grid r)).2
        (initialRun (rowLine allA.grid r)).1 := by
    rw [List.mem_filter]
    exact ⟨List.mem_finRange _, by simpa using hpos⟩
  unfold paidDescriptions
  intro h
  have h1 := (List.append_eq_nil.1 h).1
  have h2 := (List.append_eq_nil.1 h1).1
  rw [List.map_eq_nil_iff] at h2
  rw [h2] at hmem
  exact absurd hmem (List.not_mem_nil _)

/-- C5 as stated fails. With show-wins off (state `allAQuiet`, bet 10,000) row 0 wins a
non-zero amount but no description is produced; with bet 0 (state `allA`) no win is
non-zero but descriptions are produced. -/
theorem evaluate_descriptions_counterexample :
    lineWin 10000 (rowLine allAQuiet.grid 0) ≠ 0 ∧ (evaluate allAQuiet 10000 []).2 = [] ∧
      (evaluate allAQuiet 10000 []).2 ≠ winDescriptions allAQuiet.grid 10000 ∧
      winDescriptions allA.grid 0 = [] ∧ (evaluate allA 0 []).2 ≠ [] ∧
      (evaluate allA 0 []).2 ≠ winDescriptions allA.grid 0 := by
  have hwin : lineWin 10000 (rowLine allAQuiet.grid 0) ≠ 0 := by
    unfold lineWin
    rw [show allAQuiet.grid = allA.grid from rfl, allA_row_run]
    exact (linePayout_ne_zero_iff (by decide) 'A' 10).2
      (payForRun_pos 'A' (lit (5 / 10)) 10 rfl (by decide))
  have hquiet : (evaluate allAQuiet 10000 []).2 = [] := by
    rw [evaluate_eq, show allAQuiet.showWins = false from rfl]
    simp
  have hdesc : winDescriptions allAQuiet.grid 10000 ≠ [] := by
    rw [← paidDescriptions_eq_winDescriptions _ (by decide)]
    exact allA_paid_ne_nil 10000
  have hzero : winDescriptions allA.grid 0 = [] := by
    unfold winDescriptions lineWin
    simp [linePayout_zero_bet, scatterPayout_zero_bet]
  have hloud : (evaluate allA 0 []).2 ≠ [] := by
    rw [evaluate_eq, show allA.showWins = true from rfl]
    simpa using allA_paid_ne_nil 0
  refine ⟨hwin, hquiet, ?_, hzero, hloud, ?_⟩
  · rw [hquiet]
    exact Ne.symm hdesc
  · rw [hzero]
    exact hloud

/-- C10 (amended): two evaluations on the same grid with the same bet, each from an empty
list, return the same total whatever the other fields of the state are, and the same
descriptions as soon as the show-wins flag is the same in both. -/
theorem evaluate_deterministic (g1 g2 : Game) (bet : Int) (hgrid : g1.grid = g2.grid) :
    (evaluate g1 bet []).1 = (evaluate g2 bet []).1 ∧
      (g1.showWins = g2.showWins → evaluate g1 bet [] = evaluate g2 bet []) := by
  constructor
  · rw [evaluate_eq, evaluate_eq, hgrid]
  · intro hs
    rw [evaluate_eq, evaluate_eq, hgrid, hs]

theorem evaluate_deterministic_witness :
    allA.grid = allABusy.grid ∧ (evaluate allA 10000 []).1 = (evaluate allABusy 10000 []).1 ∧
      evaluate allA 10000 [] = evaluate allABusy 10000 [] :=
  ⟨rfl, (evaluate_deterministic allA allABusy 10000 rfl).1,
    (evaluate_deterministic allA allABusy 10000 rfl).2 rfl⟩

/-- C10 as stated fails: the states `allA` and `allAQuiet` hold the same grid and are
evaluated at the same bet from an empty list, yet the results differ, since the
descriptions also depend on the show-wins flag. -/
theorem evaluate_deterministic_counterexample :
    allA.grid = allAQuiet.grid ∧ evaluate allA 10000 [] ≠ evaluate allAQuiet 10000 [] := by
  refine ⟨rfl, fun h => ?_⟩
  have h2 : (evaluate allA 10000 []).2 = (evaluate allAQuiet 10000 []).2 := by rw [h]
  rw [evaluate_eq, evaluate_eq, show allAQuiet.showWins = false from rfl,
    show allA.showWins = true from rfl] at h2
  simp only [if_true, List.nil_append] at h2
  exact allA_paid_ne_nil 10000 (by simpa using h2)

/-! ## Concrete scenarios -/

theorem dmul_intCast (a b : ℤ) (h : |a * b| < 2 ^ 53) :
    dmul (a : ℚ) (b : ℚ) = ((a * b : ℤ) : ℚ) := by
  unfold dmul
  rw [← Int.cast_mul]
  exact roundDouble_intCast (a * b) h

theorem payForRun_A (run : Int) (h : 3 ≤ run) :
    payForRun 'A' run = dmul (1 / 2) (ofInt (run - 2)) := by
  unfold payForRun
  rw [if_neg (by omega), show basePay 'A' = some (lit (5 / 10)) from rfl, lit_five_tenths]

theorem payForRun_A_three : payForRun 'A' 3 = 1 / 2 := by
  rw [payForRun_A 3 (by decide), ofInt_exact (3 - 2) (by norm_num)]
  unfold dmul
  norm_num
  exact roundDouble_half

theorem payForRun_A_four : payForRun 'A' 4 = 1 := by
  rw [payForRun_A 4 (by decide), ofInt_exact (4 - 2) (by norm_num)]
  unfold dmul
  norm_num
  have := roundDouble_intCast 1 (by norm_num)
  simpa using this

theorem linePayout_A_three : linePayout 10000 'A' 3 = 5000 := by
  rw [linePayout_eq, payForRun_A_three, ofInt_exact 10000 (by norm_num)]
  unfold dmul
  norm_num
  have h := roundDouble_intCast 5000 (by norm_num)
  have h2 := llround_intCast 5000
  norm_num at h h2
  rw [h, h2]

theorem linePayout_A_four : linePayout 10000 'A' 4 = 10000 := by
  rw [linePayout_eq, payForRun_A_four, ofInt_exact 10000 (by norm_num)]
  unfold dmul
  norm_num
  have h := roundDouble_intCast 10000 (by norm_num)
  have h2 := llround_intCast 10000
  norm_num at h h2
  rw [h, h2]

/-- C15: on every line that starts with W, W, A, A, C `initialRun` returns length 4 with
anchor `'A'`; the base pay of `'A'` is 0.5, the multiplier of the run is 0.5 * 2 = 1.0, and
at bet 10,000 the line wins exactly 10,000. -/
theorem scenario_wild_run (rest : List Char) :
    initialRun ('W' :: 'W' :: 'A' :: 'A' :: 'C' :: rest) = (4, 'A') ∧
      basePay 'A' = some (1 / 2) ∧ payForRun 'A' 4 = 1 ∧
      lineWin 10000 ('W' :: 'W' :: 'A' :: 'A' :: 'C' :: rest) = 10000 := by
  have hrun : initialRun ('W' :: 'W' :: 'A' :: 'A' :: 'C' :: rest) = (4, 'A') := by
    simp [initialRun, initialRunLoop, noTarget]
  refine ⟨hrun, ?_, payForRun_A_four, ?_⟩
  · rw [show basePay 'A' = some (lit (5 / 10)) from rfl, lit_five_tenths]
  · rw [lineWin, hrun]
    exact linePayout_A_four

/-- C16: on every line that starts with A, A, A, B `initialRun` returns `(3, 'A')`; the
multiplier of the run is 0.5 and at bet 10,000 the line wins exactly 5,000. -/
theorem scenario_three_of_a_kind (rest : List Char) :
    initialRun ('A' :: 'A' :: 'A' :: 'B' :: rest) = (3, 'A') ∧
      payForRun 'A' 3 = 1 / 2 ∧
      lineWin 10000 ('A' :: 'A' :: 'A' :: 'B' :: rest) = 5000 := by
  have hrun : initialRun ('A' :: 'A' :: 'A' :: 'B' :: rest) = (3, 'A') := by
    simp [initialRun, initialRunLoop, noTarget]
  refine ⟨hrun, payForRun_A_three, ?_⟩
  rw [lineWin, hrun]
  exact linePayout_A_three

theorem standardSymbols_eq : standardSymbols = ['A', 'B', 'C', 'D', 'E', 'F', 'G', 'H'] := by
  decide

theorem standardSymbols_subset (Y : Char) (h : Y ∈ standardSymbols) : Y ∈ symbols := by
  unfold standardSymbols at h
  exact (List.mem_filter.1 h).1

/-- Every standard symbol has an entry in the pay table. -/
theorem basePay_isSome_of_standard (Y : Char) (h : Y ∈ standardSymbols) :
    (basePay Y).isSome = true := by
  rw [standardSymbols_eq] at h
  simp only [List.mem_cons, List.mem_singleton, List.not_mem_nil, or_false] at h
  rcases h with h | h | h | h | h | h | h | h <;> subst h <;> rfl

/-- C18: a run that does not start at position 0 is not detected: when the first two
symbols of a line are two different standard symbols, `initialRun` returns length 1 (with
the first symbol as anchor) and the line pays 0 at every bet, whatever follows; so `'A'`
followed by nine `'B'` pays nothing. -/
theorem initialRun_no_inner_run (X Y : Char) (rest : List Char) (bet : Int)
    (hX : X ∈ standardSymbols) (hY : Y ∈ standardSymbols) (hne : X ≠ Y) :
    initialRun (X :: Y :: rest) = (1, X) ∧ lineWin bet (X :: Y :: rest) = 0 := by
  have hX0 : X ≠ noTarget := symbols_ne_noTarget X (standardSymbols_subset X hX)
  obtain ⟨hXW, hXS⟩ := standardSymbols_ne X hX
  obtain ⟨hYW, hYS⟩ := standardSymbols_ne Y hY
  have hloop : initialRunLoop (X :: Y :: rest) noTarget 0 = (X, 1) := by
    simp [initialRunLoop, hXW, hXS, hYW, hYS, hX0, Ne.symm hne]
  have hrun : initialRun (X :: Y :: rest) = (1, X) := by
    unfold initialRun
    rw [hloop]
    simp [hX0]
  refine ⟨hrun, ?_⟩
  rw [lineWin, hrun, linePayout_eq, payForRun_short X 1 (by decide), dmul_zero, llround_zero]

theorem initialRun_no_inner_run_witness :
    initialRun ['A', 'B', 'B', 'B', 'B', 'B', 'B', 'B', 'B', 'B'] = (1, 'A') ∧
      lineWin 10000 ['A', 'B', 'B', 'B', 'B', 'B', 'B', 'B', 'B', 'B'] = 0 :=
  initialRun_no_inner_run 'A' 'B' ['B', 'B', 'B', 'B', 'B', 'B', 'B', 'B'] 10000
    (by decide) (by decide) (by decide)

/-- Once an anchor is fixed the length has grown. -/
theorem initialRunLoop_fixed_pos (line : List Char) (len : Int)
    (hnul : ∀ ch ∈ line, ch ≠ noTarget)
    (h : (initialRunLoop line noTarget len).1 ≠ noTarget) :
    len < (initialRunLoop line noTarget len).2 := by
  induction line generalizing len with
  | nil => exact absurd rfl h
  | cons ch rest ih =>
    have hrest : ∀ c ∈ rest, c ≠ noTarget := fun c hc => hnul c (List.mem_cons_of_mem _ hc)
    unfold initialRunLoop at h ⊢
    by_cases h1 : ch = 'S'
    · rw [if_pos h1] at h
      exact absurd rfl h
    · rw [if_neg h1] at h ⊢
      by_cases h2 : ch = 'W'
      · rw [if_pos h2] at h ⊢
        have := ih (len + 1) hrest h
        omega
      · rw [if_neg h2, if_pos rfl] at h ⊢
        have := (initialRunLoop_len_bounds rest ch (len + 1)).1
        omega

/-- C17: the pay table has an entry exactly for the 8 standard symbols A..H, none for
`'W'` or `'S'`. On a line of alphabet symbols the anchor returned by `initialRun` is never
`'W'` or `'S'`; it is a standard symbol whenever the length is at least 1 and it is the
"no anchor" value 0 exactly when the length is 0, so the lookup in the pay table succeeds
for every run of length 3 or more. -/
theorem anchor_in_pay_table (line : List Char) (hline : ∀ ch ∈ line, ch ∈ symbols) :
    (∀ sym, (basePay sym).isSome = true ↔ sym ∈ standardSymbols) ∧
      standardSymbols = ['A', 'B', 'C', 'D', 'E', 'F', 'G', 'H'] ∧
      basePay 'W' = none ∧ basePay 'S' = none ∧
      (initialRun line).2 ≠ 'W' ∧ (initialRun line).2 ≠ 'S' ∧
      (1 ≤ (initialRun line).1 → (initialRun line).2 ∈ standardSymbols) ∧
      ((initialRun line).2 = noTarget ↔ (initialRun line).1 = 0) ∧
      (3 ≤ (initialRun line).1 → (basePay (initialRun line).2).isSome = true) := by
  have hnul : ∀ ch ∈ line, ch ≠ noTarget := fun ch h => symbols_ne_noTarget ch (hline ch h)
  obtain ⟨_, h2, _⟩ := initialRunLoop_scan line 0 hnul
  have hpos := initialRunLoop_fixed_pos line 0 hnul
  have hge := (initialRunLoop_len_bounds line noTarget 0).1
  have htable : ∀ sym, (basePay sym).isSome = true ↔ sym ∈ standardSymbols := by
    intro sym
    constructor
    · intro h
      obtain ⟨b, hb⟩ := Option.isSome_iff_exists.1 h
      rw [standardSymbols_eq]
      rcases basePay_cases sym b hb with ⟨hs, _⟩ | ⟨hs, _⟩ | ⟨hs, _⟩ | ⟨hs, _⟩ | ⟨hs, _⟩ |
        ⟨hs, _⟩ | ⟨hs, _⟩ | ⟨hs, _⟩ <;> subst hs <;> decide
    · exact basePay_isSome_of_standard sym
  have hstd : 1 ≤ (initialRun line).1 → (initialRun line).2 ∈ standardSymbols := by
    intro hlen
    rw [initialRun_fst] at hlen
    unfold initialRun
    by_cases ht : (initialRunLoop line noTarget 0).1 = noTarget
    · rw [if_pos ⟨by omega, ht⟩]
      exact (by decide : 'H' ∈ standardSymbols)
    · rw [if_neg (fun h => ht h.2)]
      obtain ⟨a, b, c, _, _⟩ := h2 ht
      exact mem_standardSymbols _ (hline _ a) b c
  have hanchor : (initialRun line).2 ≠ 'W' ∧ (initialRun line).2 ≠ 'S' := by
    unfold initialRun
    by_cases ht : (initialRunLoop line noTarget 0).1 = noTarget
    · by_cases hl : 0 < (initialRunLoop line noTarget 0).2
      · rw [if_pos ⟨hl, ht⟩]
        exact ⟨(by decide : 'H' ≠ 'W'), (by decide : 'H' ≠ 'S')⟩
      · rw [if_neg (fun h => hl h.1)]
        simp only []
        rw [ht]
        exact ⟨by decide, by decide⟩
    · rw [if_neg (fun h => ht h.2)]
      obtain ⟨_, b, c, _, _⟩ := h2 ht
      exact ⟨b, c⟩
  refine ⟨htable, standardSymbols_eq, rfl, rfl, hanchor.1, hanchor.2, hstd, ?_, ?_⟩
  · rw [initialRun_fst]
    unfold initialRun
    by_cases ht : (initialRunLoop line noTarget 0).1 = noTarget
    · by_cases hl : 0 < (initialRunLoop line noTarget 0).2
      · rw [if_pos ⟨hl, ht⟩]
        simp only []
        constructor
        · intro h
          exact absurd h (by decide)
        · intro h
          omega
      · rw [if_neg (fun h => hl h.1)]
        simp only []
        exact ⟨fun _ => by omega, fun _ => ht⟩
    · rw [if_neg (fun h => ht h.2)]
      simp only []
      have := hpos ht
      exact ⟨fun h => absurd h ht, fun h => by omega⟩
  · intro h3
    exact basePay_isSome_of_standard _ (hstd (by omega))

theorem anchor_in_pay_table_witness :
    (∀ ch ∈ ['W', 'W', 'W', 'S', 'A'], ch ∈ symbols) ∧
      (initialRun ['W', 'W', 'W', 'S', 'A']).2 ∈ standardSymbols ∧
      (basePay (initialRun ['W', 'W', 'W', 'S', 'A']).2).isSome = true :=
  ⟨by decide,
    (anchor_in_pay_table ['W', 'W', 'W', 'S', 'A'] (by decide)).2.2.2.2.2.2.1 (by decide),
    (anchor_in_pay_table ['W', 'W', 'W', 'S', 'A'] (by decide)).2.2.2.2.2.2.2.2 (by decide)⟩

theorem payForRun_H_three : payForRun 'H' 3 = 6 := by
  unfold payForRun
  rw [if_neg (by decide), show basePay 'H' = some (lit 6) from rfl, lit_six,
    ofInt_exact (3 - 2) (by norm_num)]
  have := dmul_intCast 6 1 (by norm_num)
  norm_num at this ⊢
  exact this

theorem payForRun_B_seven : payForRun 'B' 7 = 4 := by
  unfold payForRun
  rw [if_neg (by decide), show basePay 'B' = some (lit (8 / 10)) from rfl, lit_eight_tenths,
    ofInt_exact (7 - 2) (by norm_num)]
  show roundDouble (3602879701896397 / 4503599627370496 * ((7 - 2 : ℤ) : ℚ)) = 4
  rw [roundDouble_eq (3602879701896397 / 4503599627370496 * ((7 - 2 : ℤ) : ℚ)) 2
    4503599627370496 (by norm_num [abs_of_pos]) (by norm_num [abs_of_pos])
    (by norm_num [abs_lt])]
  norm_num

theorem linePayout_H_three : linePayout 10000 'H' 3 = 60000 := by
  rw [linePayout_eq, payForRun_H_three, ofInt_exact 10000 (by norm_num)]
  have h := dmul_intCast 10000 6 (by norm_num)
  have h2 := llround_intCast 60000
  norm_num at h h2 ⊢
  rw [h, h2]

theorem linePayout_B_seven : linePayout 10000 'B' 7 = 40000 := by
  rw [linePayout_eq, payForRun_B_seven, ofInt_exact 10000 (by norm_num)]
  have h := dmul_intCast 10000 4 (by norm_num)
  have h2 := llround_intCast 40000
  norm_num at h h2 ⊢
  rw [h, h2]

/-- C20: a wild is not always favourable. In the line H,W,W,B,B,B,B,S,A,A the first
symbol is the standard symbol `'H'`; the run is H x3 and pays 6.0 × bet, 60,000 at bet
10,000. Replacing that `'H'` by a wild gives W,W,W,B,B,B,B,S,A,A, where the leading wilds
take the anchor `'B'`: the run is B x7 and pays 0.8 × 5 = 4.0 × bet, 40,000 at bet 10,000,
strictly less. -/
theorem wild_can_pay_less :
    ['H', 'W', 'W', 'B', 'B', 'B', 'B', 'S', 'A', 'A'].head? = some 'H' ∧
      'H' ∈ standardSymbols ∧
      ['H', 'W', 'W', 'B', 'B', 'B', 'B', 'S', 'A', 'A'].set 0 'W'
        = ['W', 'W', 'W', 'B', 'B', 'B', 'B', 'S', 'A', 'A'] ∧
      initialRun ['H', 'W', 'W', 'B', 'B', 'B', 'B', 'S', 'A', 'A'] = (3, 'H') ∧
      initialRun ['W', 'W', 'W', 'B', 'B', 'B', 'B', 'S', 'A', 'A'] = (7, 'B') ∧
      payForRun 'H' 3 = 6 ∧ payForRun 'B' 7 = 4 ∧
      lineWin 10000 ['H', 'W', 'W', 'B', 'B', 'B', 'B', 'S', 'A', 'A'] = 60000 ∧
      lineWin 10000 ['W', 'W', 'W', 'B', 'B', 'B', 'B', 'S', 'A', 'A'] = 40000 ∧
      (0 : Int) < 10000 ∧
      lineWin 10000 (['H', 'W', 'W', 'B', 'B', 'B', 'B', 'S', 'A', 'A'].set 0 'W')
        < lineWin 10000 ['H', 'W', 'W', 'B', 'B', 'B', 'B', 'S', 'A', 'A'] := by
  have hH : initialRun ['H', 'W', 'W', 'B', 'B', 'B', 'B', 'S', 'A', 'A'] = (3, 'H') := by
    decide
  have hB : initialRun ['W', 'W', 'W', 'B', 'B', 'B', 'B', 'S', 'A', 'A'] = (7, 'B') := by
    decide
  have wH : lineWin 10000 ['H', 'W', 'W', 'B', 'B', 'B', 'B', 'S', 'A', 'A'] = 60000 := by
    rw [lineWin, hH]
    exact linePayout_H_three
  have wB : lineWin 10000 ['W', 'W', 'W', 'B', 'B', 'B', 'B', 'S', 'A', 'A'] = 40000 := by
    rw [lineWin, hB]
    exact linePayout_B_seven
  refine ⟨rfl, by decide, rfl, hH, hB, payForRun_H_three, payForRun_B_seven, wH, wB,
    by decide, ?_⟩
  rw [show ['H', 'W', 'W', 'B', 'B', 'B', 'B', 'S', 'A', 'A'].set 0 'W'
    = ['W', 'W', 'W', 'B', 'B', 'B', 'B', 'S', 'A', 'A'] from rfl, wH, wB]
  decide

/-! ## The menu loop -/

theorem linePayout_nonneg {bet : Int} (hbet : 0 ≤ bet) (sym : Char) (run : Int) :
    0 ≤ linePayout bet sym run := by
  rw [linePayout_eq]
  exact llround_nonneg (roundDouble_nonneg
    (mul_nonneg (ofInt_nonneg hbet) (payForRun_nonneg sym run)))

theorem scatterPayout_nonneg {bet : Int} (hbet : 0 ≤ bet) (scat : Int) :
    0 ≤ scatterPayout bet scat := by
  unfold scatterPayout
  split_ifs with h
  · have hm : (0 : ℚ) ≤ dmul scatterStep (ofInt (scat - 4)) :=
      roundDouble_nonneg (mul_nonneg (by linarith [scatterStep_ge_half])
        (ofInt_nonneg (by omega)))
    exact llround_nonneg (roundDouble_nonneg (mul_nonneg (ofInt_nonneg hbet) hm))
  · exact le_refl _

/-- With a non-negative bet the total returned by `evaluate` is never negative. -/
theorem evaluate_total_nonneg (g : Game) {bet : Int} (hbet : 0 ≤ bet)
    (winNotes : List String) : 0 ≤ (evaluate g bet winNotes).1 := by
  rw [evaluate_eq]
  simp only []
  have h1 : 0 ≤ ((List.finRange ROWS).map fun r => lineWin bet (rowLine g.grid r)).sum := by
    apply List.sum_nonneg
    intro x hx
    obtain ⟨r, _, rfl⟩ := List.mem_map.1 hx
    exact linePayout_nonneg hbet _ _
  have h2 : 0 ≤ ((List.finRange COLS).map fun c => lineWin bet (colLine g.grid c)).sum := by
    apply List.sum_nonneg
    intro x hx
    obtain ⟨c, _, rfl⟩ := List.mem_map.1 hx
    exact linePayout_nonneg hbet _ _
  have h3 := scatterPayout_nonneg hbet (countScatter g.grid)
  omega

theorem betLevels_getD_nonneg (n : Nat) : 0 ≤ betLevels.getD n 0 := by
  by_cases h : n < betLevels.length
  · rw [List.getD_eq_getElem _ _ h]
    have hall : ∀ x ∈ betLevels, (0 : Int) ≤ x := by decide
    exact hall _ (List.getElem_mem h)
  · rw [List.getD_eq_default _ _ (by omega)]

theorem currentBet_nonneg (g : Game) : 0 ≤ currentBet g := by
  unfold currentBet
  split_ifs
  · exact betLevels_getD_nonneg _
  · exact le_refl _

/-- The total of `evaluate` reads the grid only. -/
theorem evaluate_total_congr (g1 g2 : Game) (bet : Int) (n1 n2 : List String)
    (h : g1.grid = g2.grid) : (evaluate g1 bet n1).1 = (evaluate g2 bet n2).1 := by
  rw [evaluate_eq, evaluate_eq, h]

/-- The spin command, when the balance does not cover the bet. -/
theorem menuStep_spin_refused (g : Game) (inp : Input)
    (hcmd : g.autoSpin = true ∨ inp.choice = some 1) (hlow : g.balance < currentBet g) :
    menuStep g inp = some { g with autoSpin := false } := by
  unfold menuStep
  have hc : (if g.autoSpin = true then some 1 else inp.choice) = some 1 := by
    rcases hcmd with h | h
    · rw [if_pos h]
    · split_ifs <;> simp [h]
  rw [hc]
  simp [hlow]

/-- The spin command, when the balance covers the bet: the balance after the step. -/
theorem menuStep_spin_paid (g : Game) (inp : Input)
    (hcmd : g.autoSpin = true ∨ inp.choice = some 1) (hfunds : currentBet g ≤ g.balance) :
    ∃ g1, menuStep g inp = some g1 ∧
      g1.balance = g.balance - currentBet g
        + (evaluate (spin g inp.picks) (currentBet g) []).1 ∧
      g1.betIndex = g.betIndex ∧ g1.grid = (spin g inp.picks).grid ∧
      g1.useColor = g.useColor ∧ g1.showWins = g.showWins := by
  unfold menuStep
  have hc : (if g.autoSpin = true then some 1 else inp.choice) = some 1 := by
    rcases hcmd with h | h
    · rw [if_pos h]
    · split_ifs <;> simp [h]
  have hev : (evaluate (spin { g with balance := g.balance - currentBet g } inp.picks)
      (currentBet g) []).1 = (evaluate (spin g inp.picks) (currentBet g) []).1 :=
    evaluate_total_congr _ _ _ _ _ rfl
  rw [hc]
  simp only [if_neg (not_lt.2 hfunds), if_neg (show (1 : Int) ≠ 0 by decide), if_true]
  split_ifs
  · exact ⟨_, rfl, by simp only []; rw [hev]; rfl, rfl, rfl, rfl, rfl⟩
  · exact ⟨_, rfl, by simp only []; rw [hev]; rfl, rfl, rfl, rfl, rfl⟩

theorem effective_choice_one (g : Game) (inp : Input)
    (h : (if g.autoSpin = true then some 1 else inp.choice) = some 1) :
    g.autoSpin = true ∨ inp.choice = some 1 := by
  by_cases ha : g.autoSpin = true
  · exact Or.inl ha
  · rw [if_neg ha] at h
    exact Or.inr h

/-- Every iteration of the menu loop keeps the invariant. -/
theorem menuStep_wellFormed (g g1 : Game) (inp : Input) (hg : g.wellFormed)
    (h : menuStep g inp = some g1) : g1.wellFormed := by
  obtain ⟨hbal, hlo, hhi⟩ := hg
  cases hc : (if g.autoSpin = true then some (1 : Int) else inp.choice) with
  | none =>
    unfold menuStep at h
    rw [hc] at h
    exact absurd h (by simp)
  | some choice =>
    by_cases h1 : choice = 1
    · subst h1
      have hcmd := effective_choice_one g inp hc
      by_cases hlow : g.balance < currentBet g
      · rw [menuStep_spin_refused g inp hcmd hlow] at h
        cases h
        exact ⟨hbal, hlo, hhi⟩
      · obtain ⟨g2, hstep, hb, hi, _⟩ := menuStep_spin_paid g inp hcmd (not_lt.1 hlow)
        rw [hstep] at h
        cases h
        have hwin := evaluate_total_nonneg (spin g inp.picks) (currentBet_nonneg g) []
        refine ⟨?_, ?_, ?_⟩
        · rw [hb]; omega
        · rw [hi]; exact hlo
        · rw [hi]; exact hhi
    · unfold menuStep at h
      rw [hc] at h
      simp only [if_neg h1] at h
      by_cases h0 : choice = 0
      · rw [if_pos h0] at h
        cases h
      rw [if_neg h0] at h
      by_cases h2 : choice = 2
      · rw [if_pos h2] at h
        cases hidx : inp.idx with
        | none =>
          rw [hidx] at h
          cases h
          exact ⟨hbal, hlo, hhi⟩
        | some idx =>
          rw [hidx] at h
          simp only [] at h
          split_ifs at h with hr
          · cases h
            exact ⟨hbal, hr.1, hr.2⟩
          · cases h
            exact ⟨hbal, hlo, hhi⟩
      rw [if_neg h2] at h
      split_ifs at h with h3 h4 h5 h6 h7
      · cases h; exact ⟨hbal, hlo, hhi⟩
      · cases h; exact ⟨hbal, hlo, hhi⟩
      · cases h; exact ⟨hbal, hlo, hhi⟩
      · cases h; exact ⟨hbal, hlo, hhi⟩
      · cases h
        exact ⟨by show 0 ≤ g.balance + 100000; omega, hlo, hhi⟩
      · cases h; exact ⟨hbal, hlo, hhi⟩

/-- The invariant holds in every state a run of `menu` reaches. -/
theorem menu_wellFormed (inputs : List Input) (g : Game) (hg : g.wellFormed) :
    (menu g inputs).wellFormed := by
  induction inputs generalizing g with
  | nil => exact hg
  | cons inp rest ih =>
    unfold menu
    cases hstep : menuStep g inp with
    | none => exact hg
    | some g1 => exact ih g1 (menuStep_wellFormed g g1 inp hg hstep)

theorem init_wellFormed : Game.init.wellFormed := by
  unfold Game.wellFormed
  decide

/-- C11: when the spin command is issued (typed as choice 1, or forced by auto-spin) in a
state whose balance is below the selected bet, the spin is refused: the step leaves the
balance, the grid and the bet index (and the other toggles) unchanged, and auto-spin is
off afterwards whatever it was before. -/
theorem spin_refused (g : Game) (inp : Input)
    (hcmd : g.autoSpin = true ∨ inp.choice = some 1) (hlow : g.balance < currentBet g) :
    ∃ g1, menuStep g inp = some g1 ∧ g1.balance = g.balance ∧ g1.grid = g.grid ∧
      g1.betIndex = g.betIndex ∧ g1.autoSpin = false ∧ g1.useColor = g.useColor ∧
      g1.showWins = g.showWins :=
  ⟨_, menuStep_spin_refused g inp hcmd hlow, rfl, rfl, rfl, rfl, rfl, rfl⟩

theorem spin_refused_witness :
    shortOfFunds.balance = 500 ∧ currentBet shortOfFunds = 1000 ∧
      shortOfFunds.autoSpin = true ∧
      ∃ g1, menuStep shortOfFunds spinInput = some g1 ∧ g1.balance = shortOfFunds.balance ∧
        g1.grid = shortOfFunds.grid ∧ g1.betIndex = shortOfFunds.betIndex ∧
        g1.autoSpin = false ∧ g1.useColor = shortOfFunds.useColor ∧
        g1.showWins = shortOfFunds.showWins :=
  ⟨rfl, by decide, rfl, spin_refused shortOfFunds spinInput (Or.inl rfl) (by decide)⟩

/-- C13: when the spin command is issued in a state whose balance covers the selected bet,
the balance after the step is the old balance minus the bet plus the total that `evaluate`
returns for the freshly drawn grid at that bet; the bet index is unchanged and the grid
is the drawn one. -/
theorem spin_settles_balance (g : Game) (inp : Input)
    (hcmd : g.autoSpin = true ∨ inp.choice = some 1) (hfunds : currentBet g ≤ g.balance) :
    ∃ g1, menuStep g inp = some g1 ∧
      g1.balance = g.balance - currentBet g
        + (evaluate (spin g inp.picks) (currentBet g) []).1 ∧
      g1.betIndex = g.betIndex ∧
      g1.grid = fun r c => randomSymbol (inp.picks r c) := by
  obtain ⟨g1, h1, h2, h3, h4, _⟩ := menuStep_spin_paid g inp hcmd hfunds
  exact ⟨g1, h1, h2, h3, h4⟩

theorem spin_settles_balance_witness :
    currentBet Game.init ≤ Game.init.balance ∧
      ∃ g1, menuStep Game.init spinInput = some g1 ∧
        g1.balance = Game.init.balance - currentBet Game.init
          + (evaluate (spin Game.init spinInput.picks) (currentBet Game.init) []).1 ∧
        g1.betIndex = Game.init.betIndex ∧
        g1.grid = fun r c => randomSymbol (spinInput.picks r c) :=
  ⟨by decide, spin_settles_balance Game.init spinInput (Or.inr rfl) (by decide)⟩

/-- C14: at the change-bet prompt (auto-spin off, choice 2) an entered integer `idx`
becomes the bet index when `0 ≤ idx < 9`, the number of bet levels, and the bet index
is left unchanged otherwise; nothing else in the state changes. Hence a valid bet index
stays valid, and the bet index is a valid index into `betLevels` in every state that a
run of the menu reaches from the initial state. -/
theorem change_bet (g : Game) (inp : Input) (idx : Int) (hmanual : g.autoSpin = false)
    (hcmd : inp.choice = some 2) (hidx : inp.idx = some idx) :
    betLevels.length = 9 ∧
      menuStep g inp
        = some { g with betIndex := if 0 ≤ idx ∧ idx < 9 then idx else g.betIndex } ∧
      ((0 ≤ g.betIndex ∧ g.betIndex < 9) →
        0 ≤ (if 0 ≤ idx ∧ idx < 9 then idx else g.betIndex) ∧
          (if 0 ≤ idx ∧ idx < 9 then idx else g.betIndex) < 9) ∧
      ∀ inputs : List Input, 0 ≤ (menu Game.init inputs).betIndex ∧
        (menu Game.init inputs).betIndex < 9 := by
  refine ⟨rfl, ?_, ?_, ?_⟩
  · unfold menuStep
    have hc : (if g.autoSpin = true then some 1 else inp.choice) = some 2 := by
      rw [if_neg (by simp [hmanual]), hcmd]
    rw [hc, hidx]
    simp only [if_neg (show (2 : Int) ≠ 0 by decide),
      if_neg (show (2 : Int) ≠ 1 by decide), if_true]
    have hlen : ((betLevels.length : Nat) : Int) = 9 := rfl
    rw [hlen]
    split_ifs <;> rfl
  · intro hg
    split_ifs with h
    · exact h
    · exact hg
  · intro inputs
    have h := menu_wellFormed inputs Game.init init_wellFormed
    have hlen : ((betLevels.length : Nat) : Int) = 9 := rfl
    exact ⟨h.2.1, by rw [← hlen]; exact h.2.2⟩

theorem change_bet_witness :
    menuStep Game.init (betInput 8) = some { Game.init with betIndex := 8 } ∧
      menuStep Game.init (betInput 9) = some Game.init ∧
      menuStep Game.init (betInput (-1)) = some Game.init :=
  ⟨(change_bet Game.init (betInput 8) 8 rfl rfl rfl).2.1,
    (change_bet Game.init (betInput 9) 9 rfl rfl rfl).2.1,
    (change_bet Game.init (betInput (-1)) (-1) rfl rfl rfl).2.1⟩

/-- C12: the initial balance is 1,000,000 and the balance is never negative in a state
that a run of the menu reaches from the initial state, whatever the commands and the
symbols drawn. Every iteration keeps the invariant (balance not negative, bet index
valid): a spin requested with a balance below the bet changes neither the balance nor the
grid, and the total win that a spin adds is never negative. -/
theorem balance_never_negative (inputs : List Input) :
    Game.init.balance = 1000000 ∧ 0 ≤ (menu Game.init inputs).balance ∧
      (∀ (g g1 : Game) (inp : Input), g.wellFormed → menuStep g inp = some g1 →
        0 ≤ g1.balance) ∧
      (∀ (g : Game) (inp : Input), (g.autoSpin = true ∨ inp.choice = some 1) →
        g.balance < currentBet g →
        ∃ g1, menuStep g inp = some g1 ∧ g1.balance = g.balance ∧ g1.grid = g.grid) ∧
      (∀ (g : Game) (picks : Fin ROWS → Fin COLS → Fin 10),
        0 ≤ (evaluate (spin g picks) (currentBet g) []).1) := by
  refine ⟨rfl, (menu_wellFormed inputs Game.init init_wellFormed).1, ?_, ?_, ?_⟩
  · intro g g1 inp hg h
    exact (menuStep_wellFormed g g1 inp hg h).1
  · intro g inp hcmd hlow
    exact ⟨_, menuStep_spin_refused g inp hcmd hlow, rfl, rfl⟩
  · intro g picks
    exact evaluate_total_nonneg _ (currentBet_nonneg g) []

theorem balance_never_negative_witness :
    0 ≤ (menu Game.init [betInput 8, spinInput, spinInput, betInput 9]).balance ∧
      ∃ g1, menuStep shortOfFunds spinInput = some g1 ∧ g1.balance = shortOfFunds.balance ∧
        g1.grid = shortOfFunds.grid :=
  ⟨(balance_never_negative [betInput 8, spinInput, spinInput, betInput 9]).2.1,
    (balance_never_negative []).2.2.2.1 shortOfFunds spinInput (Or.inl rfl) (by decide)⟩

/-! ## Exactness of the payouts -/

/-- Rounding to binary64 moves a value by at most `2^-53` of its magnitude. -/
theorem roundDouble_rel_error (x : ℚ) : |roundDouble x - x| ≤ |x| / 2 ^ 53 := by
  by_cases hx : x = 0
  · simp [hx, roundDouble_zero]
  · have hu : (0 : ℚ) < (2 : ℚ) ^ (Int.log 2 |x| - 52) := by positivity
    have h1 := abs_roundHalfEven_sub_le (x / (2 : ℚ) ^ (Int.log 2 |x| - 52))
    have h2 := two_zpow_log_le x hx
    have e1 : (2 : ℚ) ^ Int.log 2 |x| = (2 : ℚ) ^ (52 : ℤ) * (2 : ℚ) ^ (Int.log 2 |x| - 52) := by
      rw [← zpow_add₀ (by norm_num : (2 : ℚ) ≠ 0)]; congr 1; ring
    have e2 : roundDouble x - x
        = ((roundHalfEven (x / (2 : ℚ) ^ (Int.log 2 |x| - 52)) : ℚ)
            - x / (2 : ℚ) ^ (Int.log 2 |x| - 52)) * (2 : ℚ) ^ (Int.log 2 |x| - 52) := by
      rw [roundDouble_of_ne x hx]
      field_simp
    rw [e2, abs_mul, abs_of_pos hu]
    have h3 : |(roundHalfEven (x / (2 : ℚ) ^ (Int.log 2 |x| - 52)) : ℚ)
        - x / (2 : ℚ) ^ (Int.log 2 |x| - 52)| * (2 : ℚ) ^ (Int.log 2 |x| - 52)
        ≤ 1 / 2 * (2 : ℚ) ^ (Int.log 2 |x| - 52) :=
      mul_le_mul_of_nonneg_right h1 (le_of_lt hu)
    have h4 : (2 : ℚ) ^ (52 : ℤ) * (2 : ℚ) ^ (Int.log 2 |x| - 52) ≤ |x| := by
      rw [← e1]; exact h2
    have h5 : (1 : ℚ) / 2 * (2 : ℚ) ^ (Int.log 2 |x| - 52) ≤ |x| / 2 ^ 53 := by
      rw [le_div_iff₀ (by positivity)]
      have : (2 : ℚ) ^ (52 : ℤ) = 2 ^ 52 := by norm_num
      rw [this] at h4
      linarith
    exact le_trans h3 h5

/-- For a non-negative value the rounding stays within the factors `1 ∓ 2^-53`. -/
theorem roundDouble_bounds {x : ℚ} (hx : 0 ≤ x) :
    (1 - 1 / 2 ^ 53) * x ≤ roundDouble x ∧ roundDouble x ≤ (1 + 1 / 2 ^ 53) * x := by
  have h := roundDouble_rel_error x
  rw [abs_of_nonneg hx, abs_le] at h
  constructor <;> linarith [h.1, h.2]

theorem llround_eq_of_close (x : ℚ) (n : ℤ) (h : |x - n| < 1 / 2) : llround x = n := by
  rw [abs_lt] at h
  unfold llround
  split_ifs with h0
  · rw [Int.floor_eq_iff]
    constructor <;> linarith [h.1, h.2]
  · have : ⌊-x + 1 / 2⌋ = -n := by
      rw [Int.floor_eq_iff]
      push_cast
      constructor <;> linarith [h.1, h.2]
    rw [this]
    ring

/-- When the exact product `bet * q * k` of a bet, a decimal factor and a count is an
integer of moderate size, the binary64 computation `llround(bet * (q * k))` returns it. -/
theorem llround_dmul_exact (bet k n : ℤ) (q : ℚ) (hbet : 0 ≤ bet) (hbet2 : bet < 2 ^ 53)
    (hk : 0 ≤ k) (hk2 : k < 2 ^ 53) (hq : 0 ≤ q) (hP : (bet : ℚ) * q * (k : ℚ) = (n : ℚ))
    (hn : n ≤ 2 ^ 40) :
    llround (dmul (ofInt bet) (dmul (lit q) (ofInt k))) = n := by
  have hbetq : (0 : ℚ) ≤ (bet : ℚ) := by exact_mod_cast hbet
  have hkq : (0 : ℚ) ≤ (k : ℚ) := by exact_mod_cast hk
  have hnq : (n : ℚ) ≤ 2 ^ 40 := by exact_mod_cast hn
  rw [ofInt_exact bet (by rw [abs_lt]; constructor <;> omega),
    ofInt_exact k (by rw [abs_lt]; constructor <;> omega)]
  unfold dmul lit
  obtain ⟨b1, b2⟩ := roundDouble_bounds hq
  have hB : 0 ≤ roundDouble q := roundDouble_nonneg hq
  obtain ⟨m1, m2⟩ := roundDouble_bounds (mul_nonneg hB hkq)
  have hm : 0 ≤ roundDouble (roundDouble q * k) := roundDouble_nonneg (mul_nonneg hB hkq)
  obtain ⟨w1, w2⟩ := roundDouble_bounds (mul_nonneg hbetq hm)
  have hP0 : (0 : ℚ) ≤ (n : ℚ) := by rw [← hP]; positivity
  have up1 : roundDouble q * k ≤ (1 + 1 / 2 ^ 53) * (q * k) := by
    calc roundDouble q * k ≤ ((1 + 1 / 2 ^ 53) * q) * k := mul_le_mul_of_nonneg_right b2 hkq
      _ = (1 + 1 / 2 ^ 53) * (q * k) := by ring
  have lo1 : (1 - 1 / 2 ^ 53) * (q * k) ≤ roundDouble q * k := by
    calc (1 - 1 / 2 ^ 53) * (q * k) = ((1 - 1 / 2 ^ 53) * q) * k := by ring
      _ ≤ roundDouble q * k := mul_le_mul_of_nonneg_right b1 hkq
  have up2 : roundDouble (roundDouble q * k) ≤ (1 + 1 / 2 ^ 53) ^ 2 * (q * k) := by
    calc roundDouble (roundDouble q * k) ≤ (1 + 1 / 2 ^ 53) * (roundDouble q * k) := m2
      _ ≤ (1 + 1 / 2 ^ 53) * ((1 + 1 / 2 ^ 53) * (q * k)) :=
        mul_le_mul_of_nonneg_left up1 (by norm_num)
      _ = (1 + 1 / 2 ^ 53) ^ 2 * (q * k) := by ring
  have lo2 : (1 - 1 / 2 ^ 53) ^ 2 * (q * k) ≤ roundDouble (roundDouble q * k) := by
    calc (1 - 1 / 2 ^ 53) ^ 2 * (q * k) = (1 - 1 / 2 ^ 53) * ((1 - 1 / 2 ^ 53) * (q * k)) := by
          ring
      _ ≤ (1 - 1 / 2 ^ 53) * (roundDouble q * k) :=
        mul_le_mul_of_nonneg_left lo1 (by norm_num)
      _ ≤ roundDouble (roundDouble q * k) := m1
  have up3 : roundDouble (bet * roundDouble (roundDouble q * k)) ≤ (1 + 1 / 2 ^ 53) ^ 3 * n := by
    calc roundDouble (bet * roundDouble (roundDouble q * k))
        ≤ (1 + 1 / 2 ^ 53) * (bet * roundDouble (roundDouble q * k)) := w2
      _ ≤ (1 + 1 / 2 ^ 53) * (bet * ((1 + 1 / 2 ^ 53) ^ 2 * (q * k))) :=
        mul_le_mul_of_nonneg_left (mul_le_mul_of_nonneg_left up2 hbetq) (by norm_num)
      _ = (1 + 1 / 2 ^ 53) ^ 3 * (bet * q * k) := by ring
      _ = (1 + 1 / 2 ^ 53) ^ 3 * n := by rw [hP]
  have lo3 : (1 - 1 / 2 ^ 53) ^ 3 * n ≤ roundDouble (bet * roundDouble (roundDouble q * k)) := by
    calc (1 - 1 / 2 ^ 53) ^ 3 * (n : ℚ) = (1 - 1 / 2 ^ 53) ^ 3 * (bet * q * k) := by rw [hP]
      _ = (1 - 1 / 2 ^ 53) * (bet * ((1 - 1 / 2 ^ 53) ^ 2 * (q * k))) := by ring
      _ ≤ (1 - 1 / 2 ^ 53) * (bet * roundDouble (roundDouble q * k)) :=
        mul_le_mul_of_nonneg_left (mul_le_mul_of_nonneg_left lo2 hbetq) (by norm_num)
      _ ≤ roundDouble (bet * roundDouble (roundDouble q * k)) := w1
  have c1 : ((1 : ℚ) + 1 / 2 ^ 53) ^ 3 ≤ 1 + 1 / 2 ^ 50 := by norm_num
  have c2 : (1 : ℚ) - 1 / 2 ^ 50 ≤ (1 - 1 / 2 ^ 53) ^ 3 := by norm_num
  have up4 : roundDouble (bet * roundDouble (roundDouble q * k)) ≤ (1 + 1 / 2 ^ 50) * n :=
    le_trans up3 (mul_le_mul_of_nonneg_right c1 hP0)
  have lo4 : (1 - 1 / 2 ^ 50) * n ≤ roundDouble (bet * roundDouble (roundDouble q * k)) :=
    le_trans (mul_le_mul_of_nonneg_right c2 hP0) lo3
  apply llround_eq_of_close
  rw [abs_lt]
  have hsmall : (n : ℚ) / 2 ^ 50 ≤ 1 / 2 ^ 10 := by
    calc (n : ℚ) / 2 ^ 50 ≤ 2 ^ 40 / 2 ^ 50 :=
          div_le_div_of_nonneg_right hnq (by positivity)
      _ = 1 / 2 ^ 10 := by norm_num
  constructor
  · have : (1 - 1 / 2 ^ 50) * (n : ℚ) = n - n / 2 ^ 50 := by ring
    rw [this] at lo4
    have h10 : (1 : ℚ) / 2 ^ 10 < 1 / 2 := by norm_num
    linarith
  · have : (1 + 1 / 2 ^ 50) * (n : ℚ) = n + n / 2 ^ 50 := by ring
    rw [this] at up4
    have h10 : (1 : ℚ) / 2 ^ 10 < 1 / 2 := by norm_num
    linarith

/-- The pay table holds the binary64 values of the decimal literals of the source. -/
theorem basePayTable_eq_decimals :
    basePayTable = basePayDecimals.map fun p => (p.1, lit p.2) := rfl

theorem betLevels_form (bet : Int) (h : bet ∈ betLevels) :
    ∃ t : Int, bet = 1000 * t ∧ 0 < t ∧ t ≤ 500 := by
  simp only [betLevels, List.mem_cons, List.mem_singleton, List.not_mem_nil, or_false] at h
  rcases h with h | h | h | h | h | h | h | h | h <;> subst h
  · exact ⟨1, by norm_num⟩
  · exact ⟨2, by norm_num⟩
  · exact ⟨4, by norm_num⟩
  · exact ⟨10, by norm_num⟩
  · exact ⟨20, by norm_num⟩
  · exact ⟨50, by norm_num⟩
  · exact ⟨100, by norm_num⟩
  · exact ⟨200, by norm_num⟩
  · exact ⟨500, by norm_num⟩

theorem basePayDecimals_form (sym : Char) (q : ℚ) (h : (sym, q) ∈ basePayDecimals) :
    ∃ j : Int, q = (j : ℚ) / 10 ∧ 0 < j ∧ j ≤ 60 ∧ basePay sym = some (lit q) := by
  simp only [basePayDecimals, List.mem_cons, List.mem_singleton, List.not_mem_nil, or_false,
    Prod.mk.injEq] at h
  rcases h with ⟨h1, h2⟩ | ⟨h1, h2⟩ | ⟨h1, h2⟩ | ⟨h1, h2⟩ | ⟨h1, h2⟩ | ⟨h1, h2⟩ | ⟨h1, h2⟩ |
    ⟨h1, h2⟩ <;> subst h1 <;> subst h2
  · exact ⟨5, by norm_num, by norm_num, by norm_num, rfl⟩
  · exact ⟨8, by norm_num, by norm_num, by norm_num, rfl⟩
  · exact ⟨10, by norm_num, by norm_num, by norm_num, rfl⟩
  · exact ⟨13, by norm_num, by norm_num, by norm_num, rfl⟩
  · exact ⟨17, by norm_num, by norm_num, by norm_num, rfl⟩
  · exact ⟨25, by norm_num, by norm_num, by norm_num, rfl⟩
  · exact ⟨40, by norm_num, by norm_num, by norm_num, rfl⟩
  · exact ⟨60, by norm_num, by norm_num, by norm_num, rfl⟩

/-- The exact product of a bet level `1000 * t`, a decimal `j / 10` and a count `k` is the
integer `100 * t * j * k`, and the binary64 computation returns it. -/
theorem llround_dmul_level (t j k : Int) (ht : 0 < t) (ht2 : t ≤ 500) (hj : 0 < j)
    (hj2 : j ≤ 60) (hk : 0 < k) (hk2 : k ≤ 96) :
    ((1000 * t : Int) : ℚ) * ((j : ℚ) / 10) * (k : ℚ) = ((100 * t * j * k : Int) : ℚ) ∧
      llround (dmul (ofInt (1000 * t)) (dmul (lit ((j : ℚ) / 10)) (ofInt k)))
        = 100 * t * j * k := by
  have hP : ((1000 * t : Int) : ℚ) * ((j : ℚ) / 10) * (k : ℚ)
      = ((100 * t * j * k : Int) : ℚ) := by
    push_cast
    ring
  have h1 : t * j ≤ 500 * 60 := Int.mul_le_mul ht2 hj2 (le_of_lt hj) (by norm_num)
  have h2 : t * j * k ≤ 500 * 60 * 96 :=
    Int.mul_le_mul h1 hk2 (le_of_lt hk) (by norm_num)
  refine ⟨hP, llround_dmul_exact (1000 * t) k (100 * t * j * k) ((j : ℚ) / 10) (by omega)
    (by omega) (by omega) (by omega) (by positivity) hP ?_⟩
  have : 100 * t * j * k = 100 * (t * j * k) := by ring
  rw [this]
  omega

/-- C19: for every bet of the bet-level list, every standard symbol (decimal base pay `q`)
and every run length 3..10 the exact product `bet * q * (L - 2)` is an integer, and so is
`bet * 0.8 * (count - 4)` for every scatter count 5..100; rounding such a product to the
nearest integer leaves it unchanged, and the win computed by the code (in binary64) is
this exact product. -/
theorem payouts_are_exact (bet : Int) (hbet : bet ∈ betLevels) :
    (∀ (sym : Char) (q : ℚ) (L : Int), (sym, q) ∈ basePayDecimals → 3 ≤ L → L ≤ 10 →
      ∃ n : Int, (bet : ℚ) * q * ((L - 2 : Int) : ℚ) = (n : ℚ) ∧
        llround ((bet : ℚ) * q * ((L - 2 : Int) : ℚ)) = n ∧
        basePay sym = some (lit q) ∧ linePayout bet sym L = n) ∧
      (∀ count : Int, 5 ≤ count → count ≤ 100 →
        ∃ n : Int, (bet : ℚ) * scatterStepDecimal * ((count - 4 : Int) : ℚ) = (n : ℚ) ∧
          llround ((bet : ℚ) * scatterStepDecimal * ((count - 4 : Int) : ℚ)) = n ∧
          scatterStep = lit scatterStepDecimal ∧ scatterPayout bet count = n) := by
  obtain ⟨t, rfl, ht, ht2⟩ := betLevels_form bet hbet
  constructor
  · intro sym q L hq h3 h10
    obtain ⟨j, rfl, hj, hj2, hpay⟩ := basePayDecimals_form sym q hq
    obtain ⟨hP, hwin⟩ := llround_dmul_level t j (L - 2) ht ht2 hj hj2 (by omega) (by omega)
    refine ⟨100 * t * j * (L - 2), hP, ?_, hpay, ?_⟩
    · rw [hP]
      exact llround_intCast _
    · rw [linePayout_eq]
      unfold payForRun
      rw [if_neg (by omega), hpay]
      exact hwin
  · intro count h5 h100
    obtain ⟨hP, hwin⟩ := llround_dmul_level t 8 (count - 4) ht ht2 (by norm_num) (by norm_num)
      (by omega) (by omega)
    have hdec : ((8 : Int) : ℚ) / 10 = scatterStepDecimal := by
      unfold scatterStepDecimal
      norm_num
    rw [hdec] at hP hwin
    refine ⟨100 * t * 8 * (count - 4), hP, ?_, rfl, ?_⟩
    · rw [hP]
      exact llround_intCast _
    · unfold scatterPayout
      rw [if_pos h5]
      exact hwin

theorem payouts_are_exact_witness :
    (10000 : Int) ∈ betLevels ∧
      (∃ n : Int, ((10000 : Int) : ℚ) * (13 / 10) * (((5 : Int) - 2 : Int) : ℚ) = (n : ℚ) ∧
        llround (((10000 : Int) : ℚ) * (13 / 10) * (((5 : Int) - 2 : Int) : ℚ)) = n ∧
        basePay 'D' = some (lit (13 / 10)) ∧ linePayout 10000 'D' 5 = n) ∧
      (∃ n : Int, ((10000 : Int) : ℚ) * scatterStepDecimal * (((7 : Int) - 4 : Int) : ℚ)
          = (n : ℚ) ∧
        llround (((10000 : Int) : ℚ) * scatterStepDecimal * (((7 : Int) - 4 : Int) : ℚ)) = n ∧
        scatterStep = lit scatterStepDecimal ∧ scatterPayout 10000 7 = n) :=
  ⟨by decide,
    (payouts_are_exact 10000 (by decide)).1 'D' (13 / 10) 5 (by simp [basePayDecimals])
      (by decide) (by decide),
    (payouts_are_exact 10000 (by decide)).2 7 (by decide) (by decide)⟩

end Slot
